import Mathlib

/-!
# Verification of mastodon_is_my_blog: storm assembler and content classifier

Shallow embedding of the two algorithmic cores of the repository:

* the storm (self-reply thread) assembler,
  `mastodon_is_my_blog/routes/posts.py`, `get_storms` (lines 162-268):
  the in-memory grouping algorithm over the list of cached posts returned
  by the database query;
* the content classifier, `mastodon_is_my_blog/inspect_post.py`,
  `analyze_content_domains` (lines 27-104) and `has_human_question`
  (lines 107-116).

Modelling conventions:

* Python strings are modelled as `List Char` where character-level
  processing happens (code points, as in Python) and as `String`
  where they are only compared for equality;
* `datetime` values (`created_at`) are modelled as `Nat`: the code only
  compares them, and `datetime` is totally ordered;
* Python's stable `sorted`/`list.sort` with a key is modelled by a stable
  insertion sort on the key, which is extensionally equal to any stable
  sort by that key;
* the recursion of `collect_children` is modelled with a fuel parameter
  (`none` = the Python recursion does not come back), the top entry point
  supplying more fuel than any terminating run can consume;
* exceptions escaping a function are modelled with `Except String`;
* `BeautifulSoup` is an external HTML parser; the classifier is embedded
  over the view of the parse it actually consumes (`Soup` below):
  `find_all("a", href=True)` with each link's class token list,
  presence of `find("iframe")`, and `get_text()`;
* `urllib.parse.urlparse(...).netloc` and the regular expressions used by
  the code are embedded as executable functions over `List Char`,
  restricted to ASCII `\w`/`\s` classes, a small HTML entity table, and
  CPython's unbalanced-bracket `ValueError` check.
-/

namespace MB

/-! ## Data model: cached posts (store.py `CachedPost`, fields read by `get_storms`) -/

/-- A cached post (`store.py`, class `CachedPost`), restricted to the fields
the storm assembler reads: `id`, `in_reply_to_id` (nullable), `author_id`,
`created_at`, `has_link`.  The remaining columns (`content`,
`media_attachments`, counters, ...) are only copied verbatim into the output
dictionaries and are therefore not modelled separately; a tree node is
represented by the post record it projects. -/
structure Post where
  id : String
  in_reply_to_id : Option String
  author_id : String
  created_at : Nat
  has_link : Bool
deriving Repr, DecidableEq

/-- Python truthiness of the nullable string column `in_reply_to_id`
(`if p.in_reply_to_id:`): `None` and the empty string are falsy. -/
def truthy : Option String → Bool
  | none => false
  | some s => !(s == "")

/-- The `children_map` lookup of `get_storms` (posts.py lines 193-196 and 227):
`children_map` maps each truthy `in_reply_to_id` to the posts carrying it, in
input order, and `children_map.get(parent_id, [])` returns those posts. -/
def children_of (posts : List Post) (pid : String) : List Post :=
  posts.filter (fun q => truthy q.in_reply_to_id && q.in_reply_to_id == some pid)

/-- One insertion step of the stable ascending sort by `created_at`. -/
def insert_asc (p : Post) : List Post → List Post
  | [] => [p]
  | q :: rest => if p.created_at ≤ q.created_at then p :: q :: rest else q :: insert_asc p rest

/-- `direct_kids.sort(key=lambda x: x.created_at)` (posts.py line 229):
stable ascending sort by `created_at`, embedded as stable insertion sort. -/
def sort_asc : List Post → List Post
  | [] => []
  | p :: rest => insert_asc p (sort_asc rest)

/-- One insertion step of the stable descending sort by `created_at`. -/
def insert_desc (p : Post) : List Post → List Post
  | [] => [p]
  | q :: rest => if q.created_at ≤ p.created_at then p :: q :: rest else q :: insert_desc p rest

/-- `sorted(all_posts, key=lambda x: x.created_at, reverse=True)`
(posts.py line 203): stable descending sort by `created_at`. -/
def sort_desc : List Post → List Post
  | [] => []
  | p :: rest => insert_desc p (sort_desc rest)

/-- A node of a storm tree: the `kid_data` dictionary of posts.py lines
235-248, i.e. the included post together with its recursively collected
children. -/
inductive StormTree where
  | node : Post → List StormTree → StormTree

/-- The `storm` dictionary of posts.py lines 253-265: a root post and its
collected `branches`. -/
structure Storm where
  root : Post
  branches : List StormTree

/-- The `for kid in direct_kids` body of `collect_children` (posts.py lines
231-249), abstracted over the recursive call `rec` (which receives the fuel
one level down).  An included kid's id is added to `processed_ids` before
recursing; a kid whose `author_id` differs from the root author is skipped
together with its whole subtree. -/
def collect_kids (root_author_id : String)
    (rec : String → List String → Option (List StormTree × List String)) :
    List Post → List String → Option (List StormTree × List String)
  | [], processed => some ([], processed)
  | kid :: rest, processed =>
      if kid.author_id == root_author_id then
        match rec kid.id (kid.id :: processed) with
        | none => none
        | some (subs, processed1) =>
            match collect_kids root_author_id rec rest processed1 with
            | none => none
            | some (siblings, processed2) =>
                some (StormTree.node kid subs :: siblings, processed2)
      else
        collect_kids root_author_id rec rest processed

/-- `collect_children(parent_id, root_author_id)` of posts.py lines 225-250.
The Python function recurses without any structural bound; the `Nat` fuel
makes the embedding total, with `none` modelling a run of the Python
recursion that does not terminate.  The mutated enclosing `processed_ids`
set is threaded explicitly as a list of ids. -/
def collect_children (posts : List Post) (root_author_id : String) :
    Nat → String → List String → Option (List StormTree × List String)
  | 0, _, _ => none
  | fuel + 1, parent_id, processed =>
      collect_kids root_author_id
        (fun pid proc => collect_children posts root_author_id fuel pid proc)
        (sort_asc (children_of posts parent_id))
        processed

/-- Root test of posts.py lines 214-219:
`if not p.in_reply_to_id and not p.has_link: is_root = True`. -/
def is_root (p : Post) : Bool :=
  !truthy p.in_reply_to_id && !p.has_link

/-- The root-discovery loop of posts.py lines 205-266: iterate the posts in
descending `created_at` order, skip ids already in `processed_ids`, and for
every root build a storm from `collect_children(p.id, p.author_id)`. -/
def storms_loop (posts : List Post) (fuel : Nat) :
    List Post → List String → Option (List Storm)
  | [], _ => some []
  | p :: rest, processed =>
      if processed.contains p.id then storms_loop posts fuel rest processed
      else
        if is_root p then
          match collect_children posts p.author_id fuel p.id (p.id :: processed) with
          | none => none
          | some (branches, processed1) =>
              match storms_loop posts fuel rest processed1 with
              | none => none
              | some storms => some ({ root := p, branches := branches } :: storms)
        else storms_loop posts fuel rest processed

/-- The in-memory grouping algorithm of `get_storms` (posts.py lines
191-268), as a function of the post list returned by the database query.
`posts.length + 1` levels of fuel are more than any terminating run of the
Python recursion can consume (each recursion level descends one step along
a reply chain of distinct posts). -/
def get_storms (posts : List Post) : Option (List Storm) :=
  storms_loop posts (posts.length + 1) (sort_desc posts) []

/-! ### Derived views of the output used by the theorems -/

mutual

/-- All posts of a storm tree: the node's post and, recursively, the posts
of its children. -/
def tree_posts : StormTree → List Post
  | .node p kids => p :: forest_posts kids

/-- All posts of a list of storm trees. -/
def forest_posts : List StormTree → List Post
  | [] => []
  | t :: ts => tree_posts t ++ forest_posts ts

end

/-- The post at the top of a storm tree. -/
def tree_post : StormTree → Post
  | .node p _ => p

/-- A list of sibling trees is in ascending `created_at` order of its
top posts. -/
def heads_asc (ts : List StormTree) : Prop :=
  List.Pairwise (fun s t => (tree_post s).created_at ≤ (tree_post t).created_at) ts

mutual

/-- Every list of direct children anywhere inside the tree is in ascending
`created_at` order. -/
def tree_sorted : StormTree → Prop
  | .node _ kids => heads_asc kids ∧ forest_sorted kids

/-- `tree_sorted` for every tree of a forest. -/
def forest_sorted : List StormTree → Prop
  | [] => True
  | t :: ts => tree_sorted t ∧ forest_sorted ts

end

/-- All posts appearing in a storm: the root and every branch post. -/
def storm_posts (s : Storm) : List Post :=
  s.root :: forest_posts s.branches

/-- All posts appearing across a list of storms. -/
def storms_posts : List Storm → List Post
  | [] => []
  | s :: ss => storm_posts s ++ storms_posts ss

/-! ## Content classifier (inspect_post.py) -/

/-- ASCII model of the regex class `\s` (Python whitespace). -/
def is_space (c : Char) : Bool :=
  c == ' ' || c == '\t' || c == '\n' || c == '\r' || c == '\x0b' || c == '\x0c'

/-- ASCII model of the regex class `\w` (letters, digits, underscore). -/
def is_word_char (c : Char) : Bool := c.isAlphanum || c == '_'

/-- The character class `[\w’']` of `has_human_question`'s regex:
word characters plus the two apostrophe variants. -/
def is_word_ex (c : Char) : Bool := is_word_char c || c == '’' || c == '\''

/-- `re.search(r"\w+\?", text)` (inspect_post.py line 101): the raw text
contains a word character immediately followed by a question mark. -/
def gate_scan : List Char → Bool
  | c1 :: c2 :: rest => (is_word_char c1 && c2 == '?') || gate_scan (c2 :: rest)
  | _ => false

/-- `re.search(r"\b[\w’']+\?\s*$|\b[\w’']+\?\s+", text)` (inspect_post.py
line 116), embedded as a left-to-right scan.  The accumulator `hasW`
records whether the current maximal `[\w’']` run seen so far contains a
genuine `\w` character (needed for the `\b` at the start of the match);
acceptance at a `?` requires the following character to be whitespace, or
the `?` to end the text (`\s*$` and `\s+` amount to exactly that).
`hhq_accept` is the acceptance test of the scan: the rest of the text
starts with a `?` that ends the text or is followed by whitespace, and
the current run satisfies the word-character requirement `hasW2`. -/
def hhq_accept (hasW2 : Bool) : List Char → Bool
  | [] => false
  | q :: rest =>
      if q = '?' then
        match rest with
        | [] => hasW2
        | d :: _ => hasW2 && is_space d
      else false

def hhq_scan : Bool → List Char → Bool
  | _, [] => false
  | hasW, c :: rest =>
      if is_word_ex c then
        hhq_accept (hasW || is_word_char c) rest || hhq_scan (hasW || is_word_char c) rest
      else
        hhq_scan false rest

/-- Split a character list at its first `>`:
`some (before, after)` with `l = before ++ '>' :: after`. -/
def split_gt : List Char → Option (List Char × List Char)
  | [] => none
  | c :: rest =>
      if c == '>' then some ([], rest)
      else
        match split_gt rest with
        | none => none
        | some (before, after) => some (c :: before, after)

/-- Worker for `strip_tags`; the fuel (always supplied ≥ length + 1, and one
unit pays for at least one consumed character) only makes the left-to-right
scan structural. -/
def strip_tags_go : Nat → List Char → List Char
  | 0, s => s
  | _ + 1, [] => []
  | fuel + 1, c :: rest =>
      if c == '<' then
        match split_gt rest with
        | some (before, after) =>
            if before.isEmpty then c :: strip_tags_go fuel rest
            else ' ' :: strip_tags_go fuel after
        | none => c :: strip_tags_go fuel rest
      else c :: strip_tags_go fuel rest

/-- `re.sub(r"<[^>]+>", " ", html)` (inspect_post.py line 109): every
`<`...`>` span with at least one non-`>` character between is replaced by a
single space, scanning left to right; an unmatched `<` (no later `>`, or
the empty tag `<>`) stays literal. -/
def strip_tags (s : List Char) : List Char := strip_tags_go (s.length + 1) s

/-- Entity table for the `html.unescape` model: the named references the
embedding resolves (a representative subset of the full HTML5 table; the
code under analysis and all inputs considered here use no others). -/
def entity_table : List (List Char × Char) :=
  [(['a','m','p',';'], '&'), (['l','t',';'], '<'), (['g','t',';'], '>'),
   (['q','u','o','t',';'], '"'), (['a','p','o','s',';'], '\''), (['#','3','9',';'], '\'')]

/-- Worker for `py_unescape` (fuel as in `strip_tags_go`). -/
def py_unescape_go : Nat → List Char → List Char
  | 0, s => s
  | _ + 1, [] => []
  | fuel + 1, c :: rest =>
      if c == '&' then
        match entity_table.find? (fun e => e.1.isPrefixOf rest) with
        | some e => e.2 :: py_unescape_go fuel (rest.drop e.1.length)
        | none => c :: py_unescape_go fuel rest
      else c :: py_unescape_go fuel rest

/-- `html.unescape(text)` (inspect_post.py line 110), restricted to
`entity_table`: one left-to-right pass replacing character references
(the replacement text is not rescanned, as in CPython). -/
def py_unescape (s : List Char) : List Char := py_unescape_go (s.length + 1) s

/-- Does the regex `https?://` match at the head of `s`?  If so, return the
remainder after the scheme prefix. -/
def url_scheme_at (s : List Char) : Option (List Char) :=
  if ['h','t','t','p','s',':','/','/'].isPrefixOf s then some (s.drop 8)
  else if ['h','t','t','p',':','/','/'].isPrefixOf s then some (s.drop 7)
  else none

/-- Worker for `strip_urls` (fuel as in `strip_tags_go`). -/
def strip_urls_go : Nat → List Char → List Char
  | 0, s => s
  | _ + 1, [] => []
  | fuel + 1, c :: rest =>
      match url_scheme_at (c :: rest) with
      | some tail =>
          (match tail with
           | [] => c :: strip_urls_go fuel rest
           | d :: _ =>
              if is_space d then c :: strip_urls_go fuel rest
              else ' ' :: strip_urls_go fuel (tail.dropWhile (fun e => !is_space e)))
      | none => c :: strip_urls_go fuel rest

/-- `re.sub(r"https?://\S+", " ", text)` (inspect_post.py line 113): each
scheme prefix followed by at least one non-space character is replaced,
together with its maximal non-space run, by a single space. -/
def strip_urls (s : List Char) : List Char := strip_urls_go (s.length + 1) s

/-- The cleaning pipeline of `has_human_question` (inspect_post.py lines
109-113): drop tags, unescape entities, drop URLs. -/
def clean_text (s : List Char) : List Char := strip_urls (py_unescape (strip_tags s))

/-- `has_human_question(html)` (inspect_post.py lines 107-116). -/
def has_human_question (html : String) : Bool := hhq_scan false (clean_text html.data)

/-- The characters CPython's `urlsplit` allows in a scheme after the first
letter. -/
def scheme_char (c : Char) : Bool := c.isAlphanum || c == '+' || c == '-' || c == '.'

/-- Scheme removal of CPython's `urllib.parse.urlsplit`: if the text up to
the first `:` is a non-empty, letter-initial run of scheme characters, drop
it together with the colon. -/
def split_scheme (url : List Char) : List Char :=
  let pre := url.takeWhile (fun c => !(c == ':'))
  if pre.length < url.length && 0 < pre.length &&
     (match pre with | c :: _ => c.isAlpha | [] => false) && pre.all scheme_char then
    url.drop (pre.length + 1)
  else url

/-- `urllib.parse.urlparse(url).netloc`: after scheme removal, a netloc is
present only behind `//` and extends to the first `/`, `?` or `#`; CPython
raises `ValueError("Invalid IPv6 URL")` when the netloc contains `[`
without `]` or vice versa (the failure mode `urlparse` exhibits on
malformed URLs). -/
def url_netloc (url : List Char) : Except String (List Char) :=
  let rest := split_scheme url
  if ['/', '/'].isPrefixOf rest then
    let netloc := (rest.drop 2).takeWhile (fun c => !(c == '/' || c == '?' || c == '#'))
    if (netloc.contains '[' && !netloc.contains ']') ||
       (netloc.contains ']' && !netloc.contains '[') then
      Except.error ("ValueError: Invalid IPv6 URL")
    else Except.ok netloc
  else Except.ok []

/-- Python's substring test `needle in hay`. -/
def is_sub (needle : List Char) : List Char → Bool
  | [] => needle.isEmpty
  | c :: t => needle.isPrefixOf (c :: t) || is_sub needle t

/-- The pattern `"www."` as a character list. -/
def www_dot : List Char := ['w', 'w', 'w', '.']

/-- Worker for `clean_host` (fuel as in `strip_tags_go`): CPython
`str.replace("www.", "")`, removing every non-overlapping occurrence left
to right. -/
def replace_www_go : Nat → List Char → List Char
  | 0, s => s
  | _ + 1, [] => []
  | fuel + 1, c :: rest =>
      if www_dot.isPrefixOf (c :: rest) then replace_www_go fuel ((c :: rest).drop 4)
      else c :: replace_www_go fuel rest

/-- `domain = urlparse(...).netloc.lower(); clean_domain =
domain.replace("www.", "")` (inspect_post.py lines 66-68): lowercase the
netloc, then remove every occurrence of `"www."`. -/
def clean_host (netloc : List Char) : List Char :=
  replace_www_go (netloc.length + 1) (netloc.map Char.toLower)

/-- A media attachment, restricted to the `type` field the classifier reads
(`m["type"]`). -/
structure Attachment where
  type : String
deriving Repr, DecidableEq

/-- One `<a href=...>` element as `find_all("a", href=True)` yields it: the
`href` value and the (possibly empty) list of class tokens
(`link.get("class", [])`). -/
structure Link where
  href : String
  classes : List String
deriving Repr, DecidableEq

/-- The view of `BeautifulSoup(html, "html.parser")` consumed by
`analyze_content_domains`: the anchor elements with an `href`, whether an
`<iframe>` element is present, and `soup.get_text()`. -/
structure Soup where
  links : List Link
  has_iframe : Bool
  text : String
deriving Repr, DecidableEq

/-- Modelled from the spec: `DOMAIN_CONFIG` lives in
`mastodon_is_my_blog/data/domain_categories.py`, which is not among the
provided sources; per the schema comment in inspect_post.py lines 9-23 and
spec §6 it maps the four category names to sets of domain strings, consumed
read-only.  It is modelled as an explicit parameter of the classifier. -/
structure DomainConfig where
  video : List String
  picture : List String
  tech : List String
  news : List String
deriving Repr, DecidableEq

/-- The `flags` dictionary of `analyze_content_domains`. -/
structure ContentFlags where
  has_media : Bool
  has_video : Bool
  has_news : Bool
  has_tech : Bool
  has_link : Bool
  has_question : Bool
deriving Repr, DecidableEq

/-- The attachment loop of inspect_post.py lines 46-50. -/
def attachment_flags : List Attachment → ContentFlags → ContentFlags
  | [], flags => flags
  | m :: rest, flags =>
      let flags1 := if m.type == "video" || m.type == "gifv" || m.type == "audio" then
        { flags with has_video := true } else flags
      let flags2 := if m.type == "image" then { flags1 with has_media := true } else flags1
      attachment_flags rest flags2

/-- `any(d in clean_domain for d in DOMAIN_CONFIG[...])` (inspect_post.py
lines 71-84). -/
def domain_hit (doms : List String) (host : List Char) : Bool :=
  doms.any (fun d => is_sub d.data host)

/-- One iteration of the link loop (inspect_post.py lines 56-88).  The
`try` body can only raise from `urlparse` (a `ValueError` on a malformed
URL); the `except Exception:` handler then evaluates `logger.error(e)`
where neither `logger` nor `e` is defined in the module, so the handler
itself raises `NameError`, which escapes the whole function. -/
def link_step (cfg : DomainConfig) (link : Link) (flags : ContentFlags) :
    Except String ContentFlags :=
  let is_mention_or_tag := link.classes.contains ("mention") || link.classes.contains ("hashtag")
  let flags1 := if !is_mention_or_tag then { flags with has_link := true } else flags
  match url_netloc link.href.data with
  | Except.error _ => Except.error ("NameError: logger is not defined")
  | Except.ok netloc =>
      let host := clean_host netloc
      let flags2 := if domain_hit cfg.video host then { flags1 with has_video := true } else flags1
      let flags3 := if domain_hit cfg.picture host then { flags2 with has_media := true } else flags2
      let flags4 := if domain_hit cfg.tech host then { flags3 with has_tech := true } else flags3
      let flags5 := if domain_hit cfg.news host then { flags4 with has_news := true } else flags4
      Except.ok flags5

/-- The link loop of inspect_post.py lines 56-88: left to right over
`soup.find_all("a", href=True)`; an error from one step aborts the whole
classification (see `link_step`). -/
def link_loop (cfg : DomainConfig) : List Link → ContentFlags → Except String ContentFlags
  | [], flags => Except.ok flags
  | link :: rest, flags =>
      match link_step cfg link flags with
      | Except.error e => Except.error e
      | Except.ok flags1 => link_loop cfg rest flags1

/-- `analyze_content_domains(html, media_attachments, is_reply_to_other)`
(inspect_post.py lines 27-104): initial flags, attachment loop, iframe
check, link loop, then the question heuristic
(`if not is_reply_to_other and re.search(r"\w+\?", text_content):
flags["has_question"] = has_human_question(text_content)`). -/
def analyze_content_domains (cfg : DomainConfig) (soup : Soup)
    (media_attachments : List Attachment) (is_reply_to_other : Bool) :
    Except String ContentFlags :=
  let flags : ContentFlags :=
    { has_media := !media_attachments.isEmpty, has_video := false, has_news := false,
      has_tech := false, has_link := false, has_question := false }
  let flags1 := attachment_flags media_attachments flags
  let flags2 := if soup.has_iframe then { flags1 with has_video := true } else flags1
  match link_loop cfg soup.links flags2 with
  | Except.error e => Except.error e
  | Except.ok flags3 =>
      Except.ok
        (if !is_reply_to_other && gate_scan soup.text.data then
          { flags3 with has_question := has_human_question soup.text }
        else flags3)

/-- The five flags that do not depend on `is_reply_to_other`. -/
def visible_flags (flags : ContentFlags) : Bool × Bool × Bool × Bool × Bool :=
  (flags.has_media, flags.has_video, flags.has_news, flags.has_tech, flags.has_link)

/-- The flags value reaching the link loop of `analyze_content_domains`:
initial flags, attachment loop, iframe check (inspect_post.py lines 36-54).
Definitionally the prefix of `analyze_content_domains`. -/
def pre_link_flags (soup : Soup) (att : List Attachment) : ContentFlags :=
  let flags : ContentFlags :=
    { has_media := !att.isEmpty, has_video := false, has_news := false,
      has_tech := false, has_link := false, has_question := false }
  let flags1 := attachment_flags att flags
  if soup.has_iframe then { flags1 with has_video := true } else flags1

/-! ### Spec-side definitions (for refutation/refinement of claims) -/

/-- Modelled from the spec (§4.1.4c, claim C7): the host used for domain
matching as the claim describes it — the netloc lowercased with only a
*leading* `"www."` prefix stripped and no other characters removed.
To be compared with `clean_host`. -/
def spec_clean_host (netloc : List Char) : List Char :=
  let low := netloc.map Char.toLower
  if www_dot.isPrefixOf low then low.drop 4 else low

/-- Trailing-context condition of the claims' question heuristic: the
question mark is at the end of the text or followed by whitespace. -/
def ws_ok : List Char → Prop
  | [] => True
  | d :: _ => is_space d = true

/-- Declarative reading of `re.search(r"\w+\?", t)`: somewhere in `t`, a
`\w` character is immediately followed by `?`. -/
def raw_gate (t : List Char) : Prop :=
  ∃ pre c post, t = pre ++ c :: '?' :: post ∧ is_word_char c = true

/-- Declarative reading of the `has_human_question` regex on a text: a
non-empty run of word/apostrophe characters containing at least one `\w`
character, immediately followed by a `?` that ends the text or is followed
by whitespace. -/
def word_run_question (t : List Char) : Prop :=
  ∃ pre run post, t = pre ++ run ++ '?' :: post ∧ run ≠ [] ∧
    (∀ c ∈ run, is_word_ex c = true) ∧ (∃ c ∈ run, is_word_char c = true) ∧ ws_ok post

/-- Modelled from the spec (§4.1.5, claim C6): the question condition as
the claim states it — after cleaning (tags, entities, URLs), the text
contains a word character (including the apostrophe variants) immediately
followed by a `?` that ends the text or precedes whitespace.  To be
compared with the implementation's gate and `\b`-anchored regex. -/
def spec_question (t : List Char) : Prop :=
  ∃ pre c post, clean_text t = pre ++ c :: '?' :: post ∧ is_word_ex c = true ∧ ws_ok post

/-! ### Reachability predicates used to reason about the assembler -/

/-- Ancestor-chain invariant of a `collect_children` call: `a :: rest` is
the list of parent ids of the active recursion levels, each element being
the id of a post of `posts` whose truthy `in_reply_to_id` is the next
element, and the last element being the id of a root-eligible post (one
whose `in_reply_to_id` is not truthy). -/
def reply_chain (posts : List Post) : String → List String → Prop
  | a, [] => ∃ r, r ∈ posts ∧ r.id = a ∧ truthy r.in_reply_to_id = false
  | a, b :: rest => (∃ q, q ∈ posts ∧ q.id = a ∧ q.in_reply_to_id = some b ∧ b ≠ "") ∧
      reply_chain posts b rest

/-- `Desc posts x pid`: `x` is the id of a post of `posts` whose chain of
truthy `in_reply_to_id` links (one or more steps, each through a post of
`posts`) reaches `pid`. -/
inductive Desc (posts : List Post) : String → String → Prop where
  | base : ∀ (q : Post) (x pid : String), q ∈ posts → q.id = x →
      q.in_reply_to_id = some pid → pid ≠ "" → Desc posts x pid
  | step : ∀ (q : Post) (x y pid : String), q ∈ posts → q.id = x →
      q.in_reply_to_id = some y → y ≠ "" → Desc posts y pid → Desc posts x pid

/-- `InStorm posts ra root_id q`: post `q` is connected to the root with id
`root_id` by a chain of reply links in which every post (including `q`)
has author `ra`.  This is exactly the membership condition the collector
realises: a child is included iff its author is the root author and its
parent is the root or an included post. -/
inductive InStorm (posts : List Post) (ra : String) (root_id : String) : Post → Prop where
  | child : ∀ (q : Post), q ∈ posts → q.author_id = ra →
      q.in_reply_to_id = some root_id → root_id ≠ "" → InStorm posts ra root_id q
  | descend : ∀ (q par : Post), InStorm posts ra root_id par → q ∈ posts →
      q.author_id = ra → q.in_reply_to_id = some par.id → par.id ≠ "" →
      InStorm posts ra root_id q

/-! ## Lemmas about the stable sorts -/

theorem insert_asc_perm (p : Post) (l : List Post) : (insert_asc p l).Perm (p :: l) := by
  induction l with
  | nil => simp [insert_asc]
  | cons q rest ih =>
      by_cases h : p.created_at ≤ q.created_at
      · simp [insert_asc, h]
      · simp only [insert_asc, if_neg h]
        exact (ih.cons q).trans (List.Perm.swap p q rest)

theorem sort_asc_perm (l : List Post) : (sort_asc l).Perm l := by
  induction l with
  | nil => simp [sort_asc]
  | cons p rest ih => exact (insert_asc_perm p (sort_asc rest)).trans (ih.cons p)

theorem insert_desc_perm (p : Post) (l : List Post) : (insert_desc p l).Perm (p :: l) := by
  induction l with
  | nil => simp [insert_desc]
  | cons q rest ih =>
      by_cases h : q.created_at ≤ p.created_at
      · simp [insert_desc, h]
      · simp only [insert_desc, if_neg h]
        exact (ih.cons q).trans (List.Perm.swap p q rest)

theorem sort_desc_perm (l : List Post) : (sort_desc l).Perm l := by
  induction l with
  | nil => simp [sort_desc]
  | cons p rest ih => exact (insert_desc_perm p (sort_desc rest)).trans (ih.cons p)

theorem insert_asc_pairwise (p : Post) (l : List Post)
    (h : l.Pairwise (fun a b => a.created_at ≤ b.created_at)) :
    (insert_asc p l).Pairwise (fun a b => a.created_at ≤ b.created_at) := by
  induction l with
  | nil => simp [insert_asc]
  | cons q rest ih =>
      rcases List.pairwise_cons.mp h with ⟨hq, hrest⟩
      by_cases hle : p.created_at ≤ q.created_at
      · simp only [insert_asc, if_pos hle]
        refine List.pairwise_cons.mpr ⟨?_, h⟩
        intro x hx
        rcases List.mem_cons.mp hx with rfl | hx'
        · exact hle
        · exact le_trans hle (hq x hx')
      · simp only [insert_asc, if_neg hle]
        refine List.pairwise_cons.mpr ⟨?_, ih hrest⟩
        intro x hx
        rcases List.mem_cons.mp ((insert_asc_perm p rest).mem_iff.mp hx) with rfl | hx'
        · exact Nat.le_of_lt (Nat.lt_of_not_le hle)
        · exact hq x hx'

theorem sort_asc_pairwise (l : List Post) :
    (sort_asc l).Pairwise (fun a b => a.created_at ≤ b.created_at) := by
  induction l with
  | nil => simp [sort_asc]
  | cons p rest ih => exact insert_asc_pairwise p (sort_asc rest) ih

theorem insert_desc_pairwise (p : Post) (l : List Post)
    (h : l.Pairwise (fun a b => b.created_at ≤ a.created_at)) :
    (insert_desc p l).Pairwise (fun a b => b.created_at ≤ a.created_at) := by
  induction l with
  | nil => simp [insert_desc]
  | cons q rest ih =>
      rcases List.pairwise_cons.mp h with ⟨hq, hrest⟩
      by_cases hle : q.created_at ≤ p.created_at
      · simp only [insert_desc, if_pos hle]
        refine List.pairwise_cons.mpr ⟨?_, h⟩
        intro x hx
        rcases List.mem_cons.mp hx with rfl | hx'
        · exact hle
        · exact le_trans (hq x hx') hle
      · simp only [insert_desc, if_neg hle]
        refine List.pairwise_cons.mpr ⟨?_, ih hrest⟩
        intro x hx
        rcases List.mem_cons.mp ((insert_desc_perm p rest).mem_iff.mp hx) with rfl | hx'
        · exact Nat.le_of_lt (Nat.lt_of_not_le hle)
        · exact hq x hx'

theorem sort_desc_pairwise (l : List Post) :
    (sort_desc l).Pairwise (fun a b => b.created_at ≤ a.created_at) := by
  induction l with
  | nil => simp [sort_desc]
  | cons p rest ih => exact insert_desc_pairwise p (sort_desc rest) ih

/-! ## Lemmas about `children_of` and post ids -/

theorem children_of_mem {posts : List Post} {pid : String} {q : Post}
    (h : q ∈ children_of posts pid) :
    q ∈ posts ∧ q.in_reply_to_id = some pid ∧ pid ≠ "" := by
  rcases List.mem_filter.mp h with ⟨hmem, hcond⟩
  have hcond' : truthy q.in_reply_to_id = true ∧ (q.in_reply_to_id == some pid) = true := by
    simpa using hcond
  rcases hcond' with ⟨htr, heq⟩
  have heq' : q.in_reply_to_id = some pid := eq_of_beq heq
  refine ⟨hmem, heq', ?_⟩
  intro hpid
  rw [heq', hpid] at htr
  simp [truthy] at htr

theorem id_inj {posts : List Post} (h : (posts.map Post.id).Nodup)
    {p q : Post} (hp : p ∈ posts) (hq : q ∈ posts) (hid : p.id = q.id) : p = q :=
  List.inj_on_of_nodup_map h hp hq hid

theorem truthy_of_some {a : String} (h : a ≠ "") {o : Option String} (ho : o = some a) :
    truthy o = true := by
  rw [ho]
  simpa [truthy] using h

theorem not_truthy_none {o : Option String} (h : truthy o = false) (hne : o ≠ some "") :
    o = none := by
  cases o with
  | none => rfl
  | some s =>
      exfalso
      apply hne
      have hs : (s == "") = true := by
        cases hbe : s == "" with
        | true => rfl
        | false => simp [truthy, hbe] at h
      rw [eq_of_beq hs]

/-! ## Filter length helpers -/

theorem filter_length_le_of_imp {l : List Post} {f g : Post → Bool}
    (himp : ∀ x, g x = true → f x = true) :
    (l.filter g).length ≤ (l.filter f).length := by
  induction l with
  | nil => simp
  | cons a rest ih =>
      cases hga : g a with
      | true =>
          have hfa := himp a hga
          simp only [List.filter_cons, hga, hfa, if_true, List.length_cons]
          exact Nat.succ_le_succ ih
      | false =>
          cases hfa : f a with
          | true =>
              simp only [List.filter_cons, hga, hfa, if_true, if_false, List.length_cons]
              exact Nat.le_succ_of_le ih
          | false =>
              simp only [List.filter_cons, hga, hfa, if_false]
              exact ih

theorem filter_length_lt {l : List Post} {f g : Post → Bool} {p : Post}
    (hp : p ∈ l) (hf : f p = true) (hg : g p = false)
    (himp : ∀ x, g x = true → f x = true) :
    (l.filter g).length < (l.filter f).length := by
  induction l with
  | nil => cases hp
  | cons a rest ih =>
      rcases List.mem_cons.mp hp with rfl | hp'
      · simp only [List.filter_cons, hf, hg, if_true, if_false, List.length_cons]
        exact Nat.lt_succ_of_le (filter_length_le_of_imp himp)
      · cases hga : g a with
        | true =>
            have hfa := himp a hga
            simp only [List.filter_cons, hga, hfa, if_true, List.length_cons]
            exact Nat.succ_lt_succ (ih hp')
        | false =>
            cases hfa : f a with
            | true =>
                simp only [List.filter_cons, hga, hfa, if_true, if_false, List.length_cons]
                exact Nat.lt_succ_of_lt (ih hp')
            | false =>
                simp only [List.filter_cons, hga, hfa, if_false]
                exact ih hp'

/-! ## Lemmas about `reply_chain`, `Desc` and `InStorm` -/

theorem reply_chain_mem {posts : List Post} :
    ∀ {a : String} {rest : List String} {x : String},
      reply_chain posts a rest → x ∈ a :: rest →
      (∃ r, r ∈ posts ∧ r.id = x ∧ truthy r.in_reply_to_id = false) ∨
      (∃ q, q ∈ posts ∧ ∃ y, y ∈ rest ∧ q.id = x ∧ q.in_reply_to_id = some y) := by
  intro a rest
  induction rest generalizing a with
  | nil =>
      intro x hc hx
      rcases List.mem_cons.mp hx with rfl | hx'
      · exact Or.inl hc
      · cases hx'
  | cons b rest' ih =>
      intro x hc hx
      rcases hc with ⟨⟨q, hq, hqid, hqpar, hbne⟩, hc'⟩
      rcases List.mem_cons.mp hx with rfl | hx'
      · exact Or.inr ⟨q, hq, b, List.mem_cons_self b rest', hqid, hqpar⟩
      · rcases ih hc' hx' with h | ⟨q', hq', y, hy, hyid, hypar⟩
        · exact Or.inl h
        · exact Or.inr ⟨q', hq', y, List.mem_cons_of_mem b hy, hyid, hypar⟩

theorem no_revisit {posts : List Post} {a : String} {rest : List String} {kid : Post}
    (hnodup : (posts.map Post.id).Nodup)
    (hc : reply_chain posts a rest) (hnd : (a :: rest).Nodup)
    (hkid : kid ∈ posts) (hpar : kid.in_reply_to_id = some a) (hane : a ≠ "") :
    kid.id ∉ a :: rest := by
  intro hmem
  rcases reply_chain_mem hc hmem with ⟨r, hr, hrid, hrtr⟩ | ⟨q, hq, y, hy, hqid, hqpar⟩
  · have hrk : r = kid := id_inj hnodup hr hkid hrid
    rw [hrk, truthy_of_some hane hpar] at hrtr
    cases hrtr
  · have hqk : q = kid := id_inj hnodup hq hkid hqid
    rw [hqk, hpar] at hqpar
    have hya : y = a := (Option.some.inj hqpar).symm
    rw [hya] at hy
    exact (List.nodup_cons.mp hnd).1 hy

theorem desc_src {posts : List Post} {x z : String} (h : Desc posts x z) :
    ∃ q, q ∈ posts ∧ q.id = x ∧ truthy q.in_reply_to_id = true := by
  cases h with
  | base q x pid hq hqid hpar hne => exact ⟨q, hq, hqid, truthy_of_some hne hpar⟩
  | step q x y pid hq hqid hpar hne _ => exact ⟨q, hq, hqid, truthy_of_some hne hpar⟩

theorem desc_det {posts : List Post} (hnodup : (posts.map Post.id).Nodup) :
    ∀ {x a : String}, Desc posts x a → ∀ {b : String}, Desc posts x b →
      a = b ∨ Desc posts a b ∨ Desc posts b a := by
  intro x a h1
  induction h1 with
  | base q x pid hq hqid hpar hne =>
      intro b h2
      cases h2 with
      | base q2 x2 pid2 hq2 hqid2 hpar2 hne2 =>
          have hq2q : q2 = q := id_inj hnodup hq2 hq (hqid2.trans hqid.symm)
          rw [hq2q, hpar] at hpar2
          exact Or.inl (Option.some.inj hpar2)
      | step q2 x2 y2 pid2 hq2 hqid2 hpar2 hne2 hd2 =>
          have hq2q : q2 = q := id_inj hnodup hq2 hq (hqid2.trans hqid.symm)
          rw [hq2q, hpar] at hpar2
          have : y2 = pid := (Option.some.inj hpar2).symm
          rw [this] at hd2
          exact Or.inr (Or.inl hd2)
  | step q x y pid hq hqid hpar hne hd ih =>
      intro b h2
      cases h2 with
      | base q2 x2 pid2 hq2 hqid2 hpar2 hne2 =>
          have hq2q : q2 = q := id_inj hnodup hq2 hq (hqid2.trans hqid.symm)
          rw [hq2q, hpar] at hpar2
          have hb : b = y := Option.some.inj hpar2.symm
          rw [hb]
          exact Or.inr (Or.inr hd)
      | step q2 x2 y2 pid2 hq2 hqid2 hpar2 hne2 hd2 =>
          have hq2q : q2 = q := id_inj hnodup hq2 hq (hqid2.trans hqid.symm)
          rw [hq2q, hpar] at hpar2
          have : y2 = y := (Option.some.inj hpar2).symm
          rw [this] at hd2
          exact ih hd2

theorem chain_absorb {posts : List Post} (hnodup : (posts.map Post.id).Nodup) :
    ∀ {a : String} {rest : List String} {z : String},
      reply_chain posts a rest → Desc posts a z → z ∈ rest := by
  intro a rest
  induction rest generalizing a with
  | nil =>
      intro z hc hd
      rcases hc with ⟨r, hr, hrid, hrtr⟩
      rcases desc_src hd with ⟨q, hq, hqid, hqtr⟩
      have : q = r := id_inj hnodup hq hr (hqid.trans hrid.symm)
      rw [this, hrtr] at hqtr
      cases hqtr
  | cons b rest' ih =>
      intro z hc hd
      rcases hc with ⟨⟨q, hq, hqid, hqpar, hbne⟩, hc'⟩
      cases hd with
      | base q2 x2 pid2 hq2 hqid2 hpar2 hne2 =>
          have hq2q : q2 = q := id_inj hnodup hq2 hq (hqid2.trans hqid.symm)
          rw [hq2q, hqpar] at hpar2
          have : z = b := (Option.some.inj hpar2).symm
          rw [this]
          exact List.mem_cons_self b rest'
      | step q2 x2 y2 pid2 hq2 hqid2 hpar2 hne2 hd2 =>
          have hq2q : q2 = q := id_inj hnodup hq2 hq (hqid2.trans hqid.symm)
          rw [hq2q, hqpar] at hpar2
          have : y2 = b := (Option.some.inj hpar2).symm
          rw [this] at hd2
          exact List.mem_cons_of_mem b (ih hc' hd2)

theorem root_no_desc {posts : List Post} (hnodup : (posts.map Post.id).Nodup)
    {r : Post} (hr : r ∈ posts) (hrtr : truthy r.in_reply_to_id = false)
    {z : String} (hd : Desc posts r.id z) : False := by
  rcases desc_src hd with ⟨q, hq, hqid, hqtr⟩
  have : q = r := id_inj hnodup hq hr hqid
  rw [this, hrtr] at hqtr
  cases hqtr

theorem no_desc_sibling {posts : List Post} (hnodup : (posts.map Post.id).Nodup)
    {a : String} {rest : List String}
    (hc : reply_chain posts a rest) (hnd : (a :: rest).Nodup)
    {kid1 kid2 : Post} (hk1 : kid1 ∈ posts) (hp1 : kid1.in_reply_to_id = some a)
    (hk2 : kid2 ∈ posts) (hp2 : kid2.in_reply_to_id = some a) (hane : a ≠ "")
    (hd : Desc posts kid1.id kid2.id) : False := by
  have hnot2 : kid2.id ∉ a :: rest := no_revisit hnodup hc hnd hk2 hp2 hane
  cases hd with
  | base q x pid hq hqid hpar hne =>
      have hqk : q = kid1 := id_inj hnodup hq hk1 hqid
      rw [hqk, hp1] at hpar
      have : kid2.id = a := (Option.some.inj hpar).symm
      exact hnot2 (this ▸ List.mem_cons_self a rest)
  | step q x y pid hq hqid hpar hne hd2 =>
      have hqk : q = kid1 := id_inj hnodup hq hk1 hqid
      rw [hqk, hp1] at hpar
      have : y = a := (Option.some.inj hpar).symm
      rw [this] at hd2
      exact hnot2 (List.mem_cons_of_mem a (chain_absorb hnodup hc hd2))

theorem desc_extend {posts : List Post} {x y a : String}
    (hd : Desc posts x y)
    {kid : Post} (hk : kid ∈ posts) (hkid : kid.id = y)
    (hpar : kid.in_reply_to_id = some a) (hane : a ≠ "") :
    Desc posts x a := by
  induction hd with
  | base q x pid hq hqid hparq hne =>
      refine Desc.step q x pid a hq hqid hparq hne ?_
      exact Desc.base kid pid a hk hkid hpar hane
  | step q x y2 pid hq hqid hparq hne hd2 ih =>
      exact Desc.step q x y2 a hq hqid hparq hne (ih hkid)

theorem in_storm_author {posts : List Post} {ra root_id : String} {q : Post}
    (h : InStorm posts ra root_id q) : q.author_id = ra := by
  cases h with
  | child q hq ha hp hne => exact ha
  | descend q par hpar hq ha hp hne => exact ha

theorem in_storm_mem {posts : List Post} {ra root_id : String} {q : Post}
    (h : InStorm posts ra root_id q) : q ∈ posts := by
  cases h with
  | child q hq ha hp hne => exact hq
  | descend q par hpar hq ha hp hne => exact hq

theorem in_storm_truthy {posts : List Post} {ra root_id : String} {q : Post}
    (h : InStorm posts ra root_id q) : truthy q.in_reply_to_id = true := by
  cases h with
  | child q hq ha hp hne => exact truthy_of_some hne hp
  | descend q par hpar hq ha hp hne => exact truthy_of_some hne hp

/-! ## Termination: with enough fuel, `collect_children` always answers -/

theorem collect_children_some (posts : List Post) (ra : String)
    (hnodup : (posts.map Post.id).Nodup) :
    ∀ (fuel : Nat) (a : String) (rest : List String) (processed : List String),
      reply_chain posts a rest → (a :: rest).Nodup →
      (posts.filter (fun q => !((a :: rest).contains q.id))).length < fuel →
      (collect_children posts ra fuel a processed).isSome := by
  intro fuel
  induction fuel with
  | zero =>
      intro a rest processed _ _ hlt
      exact absurd hlt (Nat.not_lt_zero _)
  | succ fuel ih =>
      intro a rest processed hc hnd hlt
      have hkids : ∀ kid ∈ sort_asc (children_of posts a), kid ∈ children_of posts a :=
        fun kid hk => (sort_asc_perm (children_of posts a)).mem_iff.mp hk
      show (collect_kids ra
        (fun pid proc => collect_children posts ra fuel pid proc)
        (sort_asc (children_of posts a)) processed).isSome
      have main : ∀ (l : List Post), (∀ kid ∈ l, kid ∈ children_of posts a) →
          ∀ (proc : List String),
          (collect_kids ra (fun pid proc => collect_children posts ra fuel pid proc)
            l proc).isSome := by
        intro l
        induction l with
        | nil =>
            intro _ proc
            simp [collect_kids]
        | cons kid rest' ihl =>
            intro hl proc
            rcases children_of_mem (hl kid (List.mem_cons_self kid rest')) with
              ⟨hkmem, hkpar, hane⟩
            cases hauth : kid.author_id == ra with
            | true =>
                have hnotin : kid.id ∉ a :: rest := no_revisit hnodup hc hnd hkmem hkpar hane
                have hchain' : reply_chain posts kid.id (a :: rest) :=
                  ⟨⟨kid, hkmem, rfl, hkpar, hane⟩, hc⟩
                have hnd' : (kid.id :: a :: rest).Nodup := List.nodup_cons.mpr ⟨hnotin, hnd⟩
                have hstrict :
                    (posts.filter (fun q => !((kid.id :: a :: rest).contains q.id))).length <
                    (posts.filter (fun q => !((a :: rest).contains q.id))).length := by
                  refine filter_length_lt hkmem ?_ ?_ ?_
                  · simpa using hnotin
                  · simp
                  · intro x hx
                    have hx1 : x.id ∉ kid.id :: a :: rest := by simpa using hx
                    have hx2 : x.id ∉ a :: rest := fun hmem => hx1 (List.mem_cons_of_mem _ hmem)
                    simpa using hx2
                have hlt' :
                    (posts.filter (fun q => !((kid.id :: a :: rest).contains q.id))).length
                      < fuel :=
                  lt_of_lt_of_le hstrict (Nat.lt_succ_iff.mp hlt)
                have hsub := ih kid.id (a :: rest) (kid.id :: proc) hchain' hnd' hlt'
                rcases Option.isSome_iff_exists.mp hsub with ⟨⟨subs, proc1⟩, hsome⟩
                have hsib := ihl (fun k hk => hl k (List.mem_cons_of_mem kid hk)) proc1
                rcases Option.isSome_iff_exists.mp hsib with ⟨⟨sibs, proc2⟩, hsome2⟩
                simp [collect_kids, hauth, hsome, hsome2]
            | false =>
                simp only [collect_kids, hauth, Bool.false_eq_true, if_false]
                exact ihl (fun k hk => hl k (List.mem_cons_of_mem kid hk)) proc
      exact main _ hkids processed

/-! ## Shape of the collector output: authorship, processed set, ordering -/

theorem pairwise_unmap {α β : Type} {f : α → β} {R : β → β → Prop} :
    ∀ {l : List α}, (l.map f).Pairwise R → l.Pairwise (fun a b => R (f a) (f b)) := by
  intro l
  induction l with
  | nil => intro _; exact List.Pairwise.nil
  | cons a rest ih =>
      intro h
      rcases List.pairwise_cons.mp h with ⟨h1, h2⟩
      exact List.pairwise_cons.mpr ⟨fun b hb => h1 (f b) (List.mem_map_of_mem f hb), ih h2⟩


theorem collect_children_props (posts : List Post) (ra root_id : String) :
    ∀ (fuel : Nat) (a : String) (processed : List String)
      (trees : List StormTree) (proc2 : List String),
      (a = root_id ∨ ∃ par, InStorm posts ra root_id par ∧ par.id = a) →
      collect_children posts ra fuel a processed = some (trees, proc2) →
      (∀ q ∈ forest_posts trees, InStorm posts ra root_id q) ∧
      (∀ x, x ∈ proc2 ↔ x ∈ processed ∨ x ∈ (forest_posts trees).map Post.id) ∧
      heads_asc trees ∧ forest_sorted trees := by
  intro fuel
  induction fuel with
  | zero =>
      intro a processed trees proc2 _ heq
      exact absurd heq (by simp [collect_children])
  | succ fuel ih =>
      intro a processed trees proc2 hctx heq
      have hsorted := sort_asc_pairwise (children_of posts a)
      have hkids : ∀ kid ∈ sort_asc (children_of posts a), kid ∈ children_of posts a :=
        fun kid hk => (sort_asc_perm (children_of posts a)).mem_iff.mp hk
      have main : ∀ (l : List Post), (∀ kid ∈ l, kid ∈ children_of posts a) →
          ∀ (proc : List String) (ts : List StormTree) (procOut : List String),
          collect_kids ra (fun pid proc => collect_children posts ra fuel pid proc)
              l proc = some (ts, procOut) →
          (∀ q ∈ forest_posts ts, InStorm posts ra root_id q) ∧
          (∀ x, x ∈ procOut ↔ x ∈ proc ∨ x ∈ (forest_posts ts).map Post.id) ∧
          List.Sublist (ts.map tree_post) l ∧ forest_sorted ts := by
        intro l
        induction l with
        | nil =>
            intro _ proc ts procOut heq'
            have hts : ts = [] ∧ procOut = proc := by
              have h := heq'
              simp only [collect_kids, Option.some.injEq, Prod.mk.injEq] at h
              exact ⟨h.1.symm, h.2.symm⟩
            rcases hts with ⟨rfl, rfl⟩
            refine ⟨by simp [forest_posts], by simp [forest_posts], by simp, trivial⟩
        | cons kid rest' ihl =>
            intro hl proc ts procOut heq'
            rcases children_of_mem (hl kid (List.mem_cons_self kid rest')) with
              ⟨hkmem, hkpar, hane⟩
            cases hauth : kid.author_id == ra with
            | false =>
                simp only [collect_kids, hauth, Bool.false_eq_true, if_false] at heq'
                obtain ⟨k1, k2, k3, k4⟩ :=
                  ihl (fun k hk => hl k (List.mem_cons_of_mem kid hk)) proc ts procOut heq'
                exact ⟨k1, k2, k3.cons kid, k4⟩
            | true =>
                have hauth' : kid.author_id = ra := eq_of_beq hauth
                have hkin : InStorm posts ra root_id kid := by
                  rcases hctx with rfl | ⟨par, hparin, hparid⟩
                  · exact InStorm.child kid hkmem hauth' hkpar hane
                  · refine InStorm.descend kid par hparin hkmem hauth' ?_ ?_
                    · rw [hparid]; exact hkpar
                    · rw [hparid]; exact hane
                cases hrec : collect_children posts ra fuel kid.id (kid.id :: proc) with
                | none => simp [collect_kids, hauth, hrec] at heq'
                | some pair =>
                    obtain ⟨subs, proc1⟩ := pair
                    cases hsib : collect_kids ra
                        (fun pid proc => collect_children posts ra fuel pid proc)
                        rest' proc1 with
                    | none => simp [collect_kids, hauth, hrec, hsib] at heq'
                    | some pair2 =>
                        obtain ⟨sibs, procOut'⟩ := pair2
                        have heq2 : ts = StormTree.node kid subs :: sibs ∧ procOut = procOut' := by
                          have h := heq'
                          simp only [collect_kids, hauth, if_true, hrec, hsib,
                            Option.some.injEq, Prod.mk.injEq] at h
                          exact ⟨h.1.symm, h.2.symm⟩
                        rcases heq2 with ⟨rfl, rfl⟩
                        obtain ⟨c1, c2, c3, c4⟩ :=
                          ih kid.id (kid.id :: proc) subs proc1 (Or.inr ⟨kid, hkin, rfl⟩) hrec
                        obtain ⟨s1, s2, s3, s4⟩ :=
                          ihl (fun k hk => hl k (List.mem_cons_of_mem kid hk)) proc1 sibs
                            procOut hsib
                        refine ⟨?_, ?_, ?_, ?_⟩
                        · intro q hq
                          have hq' : q = kid ∨ q ∈ forest_posts subs ∨ q ∈ forest_posts sibs := by
                            simpa [forest_posts, tree_posts, List.mem_append,
                              List.mem_cons] using hq
                          rcases hq' with rfl | h | h
                          · exact hkin
                          · exact c1 q h
                          · exact s1 q h
                        · intro x
                          rw [s2 x, c2 x]
                          simp only [forest_posts, tree_posts, List.map_cons, List.map_append,
                            List.mem_cons, List.mem_append]
                          tauto
                        · have : (StormTree.node kid subs :: sibs).map tree_post =
                              kid :: sibs.map tree_post := by simp [tree_post]
                          rw [this]
                          exact s3.cons₂ kid
                        · exact ⟨⟨c3, c4⟩, s4⟩
      have heqk : collect_kids ra (fun pid proc => collect_children posts ra fuel pid proc)
          (sort_asc (children_of posts a)) processed = some (trees, proc2) := heq
      obtain ⟨h1, h2, h3, h4⟩ := main _ hkids processed trees proc2 heqk
      refine ⟨h1, h2, ?_, h4⟩
      have hps : List.Pairwise (fun a b => a.created_at ≤ b.created_at)
          (trees.map tree_post) := hsorted.sublist h3
      exact @pairwise_unmap StormTree Post tree_post
        (fun a b => a.created_at ≤ b.created_at) trees hps

/-! ## No post is collected twice below one root -/

theorem collect_children_nodup (posts : List Post) (ra : String)
    (hnodup : (posts.map Post.id).Nodup) :
    ∀ (fuel : Nat) (a : String) (rest : List String) (processed : List String)
      (trees : List StormTree) (proc2 : List String),
      reply_chain posts a rest → (a :: rest).Nodup →
      collect_children posts ra fuel a processed = some (trees, proc2) →
      ((forest_posts trees).map Post.id).Nodup ∧
      (∀ x ∈ (forest_posts trees).map Post.id, Desc posts x a ∧ x ∉ a :: rest) := by
  intro fuel
  induction fuel with
  | zero =>
      intro a rest processed trees proc2 _ _ heq
      exact absurd heq (by simp [collect_children])
  | succ fuel ih =>
      intro a rest processed trees proc2 hc hnd heq
      have hkids : ∀ kid ∈ sort_asc (children_of posts a), kid ∈ children_of posts a :=
        fun kid hk => (sort_asc_perm (children_of posts a)).mem_iff.mp hk
      have hkind : ((sort_asc (children_of posts a)).map Post.id).Nodup := by
        have h1 : ((children_of posts a).map Post.id).Nodup :=
          List.Nodup.sublist ((List.filter_sublist posts).map Post.id) hnodup
        exact ((sort_asc_perm (children_of posts a)).map Post.id).nodup_iff.mpr h1
      have main : ∀ (l : List Post),
          (∀ kid ∈ l, kid ∈ posts ∧ kid.in_reply_to_id = some a ∧ a ≠ "") →
          (l.map Post.id).Nodup →
          ∀ (proc : List String) (ts : List StormTree) (procOut : List String),
          collect_kids ra (fun pid proc => collect_children posts ra fuel pid proc)
              l proc = some (ts, procOut) →
          ((forest_posts ts).map Post.id).Nodup ∧
          (∀ x ∈ (forest_posts ts).map Post.id, ∃ kid, kid ∈ l ∧
            (x = kid.id ∨ (Desc posts x kid.id ∧ x ∉ kid.id :: a :: rest))) := by
        intro l
        induction l with
        | nil =>
            intro _ _ proc ts procOut heq'
            have hts : ts = [] := by
              have h := heq'
              simp only [collect_kids, Option.some.injEq, Prod.mk.injEq] at h
              exact h.1.symm
            rw [hts]
            constructor
            · simp [forest_posts]
            · intro x hx
              simp [forest_posts] at hx
        | cons kid rest' ihl =>
            intro hl hlnd proc ts procOut heq'
            rcases hl kid (List.mem_cons_self kid rest') with ⟨hkmem, hkpar, hane⟩
            have hl' : ∀ k ∈ rest', k ∈ posts ∧ k.in_reply_to_id = some a ∧ a ≠ "" :=
              fun k hk => hl k (List.mem_cons_of_mem kid hk)
            have hlnd2 : (kid.id :: rest'.map Post.id).Nodup := by simpa using hlnd
            have hlnd' : (rest'.map Post.id).Nodup := (List.nodup_cons.mp hlnd2).2
            have hkid_tail : kid.id ∉ rest'.map Post.id := (List.nodup_cons.mp hlnd2).1
            cases hauth : kid.author_id == ra with
            | false =>
                simp only [collect_kids, hauth, Bool.false_eq_true, if_false] at heq'
                obtain ⟨m1, m2⟩ := ihl hl' hlnd' proc ts procOut heq'
                refine ⟨m1, ?_⟩
                intro x hx
                rcases m2 x hx with ⟨kid2, hk2, hcase⟩
                exact ⟨kid2, List.mem_cons_of_mem kid hk2, hcase⟩
            | true =>
                have hnotin : kid.id ∉ a :: rest := no_revisit hnodup hc hnd hkmem hkpar hane
                have hchain' : reply_chain posts kid.id (a :: rest) :=
                  ⟨⟨kid, hkmem, rfl, hkpar, hane⟩, hc⟩
                have hnd' : (kid.id :: a :: rest).Nodup := List.nodup_cons.mpr ⟨hnotin, hnd⟩
                cases hrec : collect_children posts ra fuel kid.id (kid.id :: proc) with
                | none => simp [collect_kids, hauth, hrec] at heq'
                | some pair =>
                    obtain ⟨subs, proc1⟩ := pair
                    cases hsib : collect_kids ra
                        (fun pid proc => collect_children posts ra fuel pid proc)
                        rest' proc1 with
                    | none => simp [collect_kids, hauth, hrec, hsib] at heq'
                    | some pair2 =>
                        obtain ⟨sibs, procOut2⟩ := pair2
                        have heq2 : ts = StormTree.node kid subs :: sibs := by
                          have h := heq'
                          simp only [collect_kids, hauth, if_true, hrec, hsib,
                            Option.some.injEq, Prod.mk.injEq] at h
                          exact h.1.symm
                        subst heq2
                        obtain ⟨s1, s2⟩ := ih kid.id (a :: rest) (kid.id :: proc) subs proc1
                          hchain' hnd' hrec
                        obtain ⟨t1, t2⟩ := ihl hl' hlnd' proc1 sibs procOut2 hsib
                        have hids : (forest_posts (StormTree.node kid subs :: sibs)).map Post.id =
                            kid.id :: ((forest_posts subs).map Post.id ++
                              (forest_posts sibs).map Post.id) := by
                          simp [forest_posts, tree_posts]
                        have hkid_subs : kid.id ∉ (forest_posts subs).map Post.id := by
                          intro hmem
                          exact (s2 kid.id hmem).2 (List.mem_cons_self kid.id (a :: rest))
                        have hkid_sibs : kid.id ∉ (forest_posts sibs).map Post.id := by
                          intro hmem
                          rcases t2 kid.id hmem with ⟨kid2, hk2, hcase⟩
                          rcases hl' kid2 hk2 with ⟨hk2mem, hk2par, _⟩
                          rcases hcase with heqid | ⟨hdesc, _⟩
                          · refine hkid_tail ?_
                            rw [heqid]
                            exact List.mem_map_of_mem Post.id hk2
                          · exact no_desc_sibling hnodup hc hnd hkmem hkpar hk2mem hk2par
                              hane hdesc
                        have hdisj : ∀ x, x ∈ (forest_posts subs).map Post.id →
                            x ∈ (forest_posts sibs).map Post.id → False := by
                          intro x hxs hxt
                          rcases s2 x hxs with ⟨hdx, _⟩
                          rcases t2 x hxt with ⟨kid2, hk2, hcase⟩
                          rcases hl' kid2 hk2 with ⟨hk2mem, hk2par, _⟩
                          have hne12 : kid.id ≠ kid2.id := by
                            intro hk
                            refine hkid_tail ?_
                            rw [hk]
                            exact List.mem_map_of_mem Post.id hk2
                          rcases hcase with rfl | ⟨hdx2, _⟩
                          · exact no_desc_sibling hnodup hc hnd hk2mem hk2par hkmem hkpar
                              hane hdx
                          · rcases desc_det hnodup hdx hdx2 with heq12 | hd12 | hd21
                            · exact hne12 heq12
                            · exact no_desc_sibling hnodup hc hnd hkmem hkpar hk2mem hk2par
                                hane hd12
                            · exact no_desc_sibling hnodup hc hnd hk2mem hk2par hkmem hkpar
                                hane hd21
                        constructor
                        · rw [hids]
                          refine List.nodup_cons.mpr ⟨?_, ?_⟩
                          · intro hmem
                            rcases List.mem_append.mp hmem with h | h
                            · exact hkid_subs h
                            · exact hkid_sibs h
                          · exact List.nodup_append.mpr
                              ⟨s1, t1, fun x hx hx2 => hdisj x hx hx2⟩
                        · rw [hids]
                          intro x hx
                          rcases List.mem_cons.mp hx with rfl | hx'
                          · exact ⟨kid, List.mem_cons_self kid rest', Or.inl rfl⟩
                          · rcases List.mem_append.mp hx' with h | h
                            · exact ⟨kid, List.mem_cons_self kid rest', Or.inr (s2 x h)⟩
                            · rcases t2 x h with ⟨kid2, hk2, hcase⟩
                              exact ⟨kid2, List.mem_cons_of_mem kid hk2, hcase⟩
      have heqk : collect_kids ra (fun pid proc => collect_children posts ra fuel pid proc)
          (sort_asc (children_of posts a)) processed = some (trees, proc2) := heq
      have hlfacts : ∀ kid ∈ sort_asc (children_of posts a),
          kid ∈ posts ∧ kid.in_reply_to_id = some a ∧ a ≠ "" :=
        fun kid hk => children_of_mem (hkids kid hk)
      obtain ⟨m1, m2⟩ := main _ hlfacts hkind processed trees proc2 heqk
      refine ⟨m1, ?_⟩
      intro x hx
      rcases m2 x hx with ⟨kid, hk, hcase⟩
      rcases hlfacts kid hk with ⟨hkmem, hkpar, hane⟩
      rcases hcase with rfl | ⟨hdesc, hnin⟩
      · exact ⟨Desc.base kid kid.id a hkmem rfl hkpar hane,
          no_revisit hnodup hc hnd hkmem hkpar hane⟩
      · exact ⟨desc_extend hdesc hkmem rfl hkpar hane,
          fun hmem => hnin (List.mem_cons_of_mem kid.id hmem)⟩

/-! ## The root-discovery loop -/

theorem is_root_truthy {p : Post} (h : is_root p = true) : truthy p.in_reply_to_id = false := by
  have h' : (!truthy p.in_reply_to_id) = true ∧ (!p.has_link) = true := by
    simpa [is_root] using h
  simpa using h'.1

theorem is_root_link {p : Post} (h : is_root p = true) : p.has_link = false := by
  have h' : (!truthy p.in_reply_to_id) = true ∧ (!p.has_link) = true := by
    simpa [is_root] using h
  simpa using h'.2

theorem storms_posts_mem {q : Post} : ∀ {ss : List Storm},
    q ∈ storms_posts ss ↔ ∃ s, s ∈ ss ∧ (q = s.root ∨ q ∈ forest_posts s.branches) := by
  intro ss
  induction ss with
  | nil => simp [storms_posts]
  | cons s ss ih =>
      constructor
      · intro h
        have h' : q ∈ storm_posts s ++ storms_posts ss := h
        rcases List.mem_append.mp h' with h1 | h2
        · rcases List.mem_cons.mp h1 with rfl | hb
          · exact ⟨s, List.mem_cons_self s ss, Or.inl rfl⟩
          · exact ⟨s, List.mem_cons_self s ss, Or.inr hb⟩
        · rcases ih.mp h2 with ⟨s', hs', hc⟩
          exact ⟨s', List.mem_cons_of_mem s hs', hc⟩
      · rintro ⟨s', hs', hc⟩
        show q ∈ storm_posts s ++ storms_posts ss
        rcases List.mem_cons.mp hs' with rfl | hs''
        · refine List.mem_append.mpr (Or.inl ?_)
          rcases hc with rfl | hb
          · exact List.mem_cons_self _ _
          · exact List.mem_cons_of_mem _ hb
        · exact List.mem_append.mpr (Or.inr (ih.mpr ⟨s', hs'', hc⟩))

theorem storms_loop_some (posts : List Post) (fuel : Nat)
    (hnodup : (posts.map Post.id).Nodup) (hfuel : posts.length < fuel) :
    ∀ (rem : List Post) (processed : List String),
      (∀ p ∈ rem, p ∈ posts) →
      (storms_loop posts fuel rem processed).isSome := by
  intro rem
  induction rem with
  | nil =>
      intro processed _
      simp [storms_loop]
  | cons p rest ih =>
      intro processed hrem
      have hrem' : ∀ q ∈ rest, q ∈ posts := fun q hq => hrem q (List.mem_cons_of_mem p hq)
      cases hcont : processed.contains p.id with
      | true =>
          simp only [storms_loop, hcont, if_true]
          exact ih processed hrem'
      | false =>
          have hnmem : p.id ∉ processed := by simpa using hcont
          cases hroot : is_root p with
          | false =>
              simp only [storms_loop, hcont, hroot, Bool.false_eq_true, if_false]
              exact ih processed hrem'
          | true =>
              have hpmem : p ∈ posts := hrem p (List.mem_cons_self p rest)
              have hchain : reply_chain posts p.id [] := ⟨p, hpmem, rfl, is_root_truthy hroot⟩
              have hnd : ([p.id] : List String).Nodup := by simp
              have hlt : (posts.filter (fun q => !(([p.id] : List String).contains q.id))).length
                  < fuel :=
                lt_of_le_of_lt (List.length_filter_le _ _) hfuel
              have hsome := collect_children_some posts p.author_id hnodup fuel p.id []
                (p.id :: processed) hchain hnd hlt
              rcases Option.isSome_iff_exists.mp hsome with ⟨⟨branches, proc1⟩, hcc⟩
              rcases Option.isSome_iff_exists.mp (ih proc1 hrem') with ⟨storms, hsl⟩
              simp [storms_loop, hnmem, hroot, hcc, hsl]

theorem storms_loop_in_storm (posts : List Post) (fuel : Nat) :
    ∀ (rem : List Post) (processed : List String) (storms : List Storm),
      (∀ p ∈ rem, p ∈ posts) →
      storms_loop posts fuel rem processed = some storms →
      ∀ s ∈ storms, s.root ∈ posts ∧ is_root s.root = true ∧
        (∀ q ∈ forest_posts s.branches, InStorm posts s.root.author_id s.root.id q) ∧
        heads_asc s.branches ∧ forest_sorted s.branches := by
  intro rem
  induction rem with
  | nil =>
      intro processed storms _ heq s hs
      have hempty : ([] : List Storm) = storms := by simpa [storms_loop] using heq
      rw [← hempty] at hs
      cases hs
  | cons p rest ih =>
      intro processed storms hrem heq s hs
      have hrem' : ∀ q ∈ rest, q ∈ posts := fun q hq => hrem q (List.mem_cons_of_mem p hq)
      cases hcont : processed.contains p.id with
      | true =>
          simp only [storms_loop, hcont, if_true] at heq
          exact ih processed storms hrem' heq s hs
      | false =>
          have hnmem : p.id ∉ processed := by simpa using hcont
          cases hroot : is_root p with
          | false =>
              simp only [storms_loop, hcont, hroot, Bool.false_eq_true, if_false] at heq
              exact ih processed storms hrem' heq s hs
          | true =>
              cases hcc : collect_children posts p.author_id fuel p.id (p.id :: processed) with
              | none => simp [storms_loop, hnmem, hroot, hcc] at heq
              | some pair =>
                  obtain ⟨branches, proc1⟩ := pair
                  cases hsl : storms_loop posts fuel rest proc1 with
                  | none => simp [storms_loop, hnmem, hroot, hcc, hsl] at heq
                  | some storms' =>
                      have hred : storms_loop posts fuel (p :: rest) processed =
                          some ({ root := p, branches := branches } :: storms') := by
                        simp [storms_loop, hnmem, hroot, hcc, hsl]
                      have hstorms : storms = { root := p, branches := branches } :: storms' :=
                        (Option.some.inj (hred.symm.trans heq)).symm
                      subst hstorms
                      rcases List.mem_cons.mp hs with rfl | hs'
                      · obtain ⟨h1, _, h3, h4⟩ := collect_children_props posts p.author_id p.id
                          fuel p.id (p.id :: processed) branches proc1 (Or.inl rfl) hcc
                        exact ⟨hrem p (List.mem_cons_self p rest), hroot, h1, h3, h4⟩
                      · exact ih proc1 storms' hrem' hsl s hs'

theorem storms_loop_main (posts : List Post) (fuel : Nat)
    (hnodup : (posts.map Post.id).Nodup) :
    ∀ (rem : List Post) (processed : List String) (storms : List Storm),
      (∀ p ∈ rem, p ∈ posts) →
      (rem.map Post.id).Nodup →
      (∀ x ∈ processed, ∀ p ∈ rem, is_root p = true → p.id ≠ x) →
      storms_loop posts fuel rem processed = some storms →
      storms.map Storm.root = rem.filter is_root ∧
      ((storms_posts storms).map Post.id).Nodup ∧
      (∀ s ∈ storms, ∀ x ∈ (forest_posts s.branches).map Post.id,
        Desc posts x s.root.id) := by
  intro rem
  induction rem with
  | nil =>
      intro processed storms _ _ _ heq
      have hempty : ([] : List Storm) = storms := by simpa [storms_loop] using heq
      rw [← hempty]
      refine ⟨by simp, by simp [storms_posts], ?_⟩
      intro s hs
      cases hs
  | cons p rest ih =>
      intro processed storms hrem hremnd hproc heq
      have hrem' : ∀ q ∈ rest, q ∈ posts := fun q hq => hrem q (List.mem_cons_of_mem p hq)
      have hremnd2 : (p.id :: rest.map Post.id).Nodup := by simpa using hremnd
      have hremnd' : (rest.map Post.id).Nodup := (List.nodup_cons.mp hremnd2).2
      have hpid_tail : p.id ∉ rest.map Post.id := (List.nodup_cons.mp hremnd2).1
      have hpmem : p ∈ posts := hrem p (List.mem_cons_self p rest)
      cases hcont : processed.contains p.id with
      | true =>
          have hpin : p.id ∈ processed := by simpa using hcont
          have hroot_false : is_root p = false := by
            cases hr : is_root p with
            | false => rfl
            | true => exact absurd rfl (hproc p.id hpin p (List.mem_cons_self p rest) hr)
          simp only [storms_loop, hcont, if_true] at heq
          obtain ⟨c1, c2, c3⟩ := ih processed storms hrem' hremnd'
            (fun x hx q hq hr => hproc x hx q (List.mem_cons_of_mem p hq) hr) heq
          refine ⟨?_, c2, c3⟩
          rw [List.filter_cons, hroot_false]
          simpa using c1
      | false =>
          have hnmem : p.id ∉ processed := by simpa using hcont
          cases hroot : is_root p with
          | false =>
              simp only [storms_loop, hcont, hroot, Bool.false_eq_true, if_false] at heq
              obtain ⟨c1, c2, c3⟩ := ih processed storms hrem' hremnd'
                (fun x hx q hq hr => hproc x hx q (List.mem_cons_of_mem p hq) hr) heq
              refine ⟨?_, c2, c3⟩
              rw [List.filter_cons, hroot]
              simpa using c1
          | true =>
              cases hcc : collect_children posts p.author_id fuel p.id (p.id :: processed) with
              | none => simp [storms_loop, hnmem, hroot, hcc] at heq
              | some pair =>
                  obtain ⟨branches, proc1⟩ := pair
                  cases hsl : storms_loop posts fuel rest proc1 with
                  | none => simp [storms_loop, hnmem, hroot, hcc, hsl] at heq
                  | some storms' =>
                      have hred : storms_loop posts fuel (p :: rest) processed =
                          some ({ root := p, branches := branches } :: storms') := by
                        simp [storms_loop, hnmem, hroot, hcc, hsl]
                      have hstorms : storms = { root := p, branches := branches } :: storms' :=
                        (Option.some.inj (hred.symm.trans heq)).symm
                      subst hstorms
                      have hchain : reply_chain posts p.id [] :=
                        ⟨p, hpmem, rfl, is_root_truthy hroot⟩
                      have hndp : ([p.id] : List String).Nodup := by simp
                      obtain ⟨b1, b2⟩ := collect_children_nodup posts p.author_id hnodup fuel
                        p.id [] (p.id :: processed) branches proc1 hchain hndp hcc
                      obtain ⟨_, p2, _, _⟩ := collect_children_props posts p.author_id p.id
                        fuel p.id (p.id :: processed) branches proc1 (Or.inl rfl) hcc
                      -- the processed invariant for the tail call
                      have hproc1 : ∀ x ∈ proc1, ∀ q ∈ rest, is_root q = true → q.id ≠ x := by
                        intro x hx q hq hr
                        rcases (p2 x).mp hx with hx' | hx'
                        · rcases List.mem_cons.mp hx' with rfl | hx''
                          · intro hqe
                            have hqp : q = p := id_inj hnodup (hrem' q hq) hpmem hqe
                            rw [hqp] at hq
                            exact hpid_tail (List.mem_map_of_mem Post.id hq)
                          · exact hproc x hx'' q (List.mem_cons_of_mem p hq) hr
                        · intro hqe
                          rcases desc_src (b2 x hx').1 with ⟨w, hw, hwid, hwtr⟩
                          have hqw : q = w := id_inj hnodup (hrem' q hq) hw (hqe.trans hwid.symm)
                          rw [hqw] at hr
                          rw [is_root_truthy hr] at hwtr
                          simp at hwtr
                      obtain ⟨c1, c2, c3⟩ := ih proc1 storms' hrem' hremnd' hproc1 hsl
                      have hs'root : ∀ s' ∈ storms', s'.root ∈ rest ∧ is_root s'.root = true := by
                        intro s' hs'
                        have hmm : s'.root ∈ storms'.map Storm.root :=
                          List.mem_map_of_mem Storm.root hs'
                        rw [c1] at hmm
                        exact ⟨(List.mem_filter.mp hmm).1, (List.mem_filter.mp hmm).2⟩
                      refine ⟨?_, ?_, ?_⟩
                      · rw [List.filter_cons, hroot]
                        simp only [List.map_cons, if_true]
                        rw [c1]
                      · have hids : (storms_posts
                            ({ root := p, branches := branches } :: storms')).map Post.id =
                            p.id :: ((forest_posts branches).map Post.id ++
                              (storms_posts storms').map Post.id) := by
                          simp [storms_posts, storm_posts]
                        rw [hids]
                        have hnot_tail : ∀ x ∈ (storms_posts storms').map Post.id,
                            x = p.id → False := by
                          intro x hx hxp
                          rcases List.mem_map.mp hx with ⟨q, hq, rfl⟩
                          rcases storms_posts_mem.mp hq with ⟨s', hs', hqc⟩
                          rcases hqc with rfl | hqb
                          · rcases hs'root s' hs' with ⟨hmem, _⟩
                            have hrp : s'.root = p := id_inj hnodup (hrem' _ hmem) hpmem hxp
                            rw [hrp] at hmem
                            exact hpid_tail (List.mem_map_of_mem Post.id hmem)
                          · have hd : Desc posts q.id s'.root.id :=
                              c3 s' hs' q.id (List.mem_map_of_mem Post.id hqb)
                            rcases desc_src hd with ⟨w, hw, hwid, hwtr⟩
                            have hwp : w = p := id_inj hnodup hw hpmem (hwid.trans hxp)
                            rw [hwp] at hwtr
                            rw [is_root_truthy hroot] at hwtr
                            simp at hwtr
                        have hdisj2 : ∀ x ∈ (forest_posts branches).map Post.id,
                            x ∈ (storms_posts storms').map Post.id → False := by
                          intro x hxb hxs
                          have hdxp : Desc posts x p.id := (b2 x hxb).1
                          rcases List.mem_map.mp hxs with ⟨q, hq, rfl⟩
                          rcases storms_posts_mem.mp hq with ⟨s', hs', hqc⟩
                          rcases hs'root s' hs' with ⟨hmem, hr⟩
                          rcases hqc with rfl | hqb
                          · rcases desc_src hdxp with ⟨w, hw, hwid, hwtr⟩
                            have hrw : s'.root = w := id_inj hnodup (hrem' _ hmem) hw hwid.symm
                            rw [← hrw] at hwtr
                            rw [is_root_truthy hr] at hwtr
                            simp at hwtr
                          · have hd2 : Desc posts q.id s'.root.id :=
                              c3 s' hs' q.id (List.mem_map_of_mem Post.id hqb)
                            have hne : p.id ≠ s'.root.id := by
                              intro hpe
                              have hrp : s'.root = p :=
                                id_inj hnodup (hrem' _ hmem) hpmem hpe.symm
                              rw [hrp] at hmem
                              exact hpid_tail (List.mem_map_of_mem Post.id hmem)
                            rcases desc_det hnodup hdxp hd2 with heq12 | hd12 | hd21
                            · exact hne heq12
                            · exact root_no_desc hnodup hpmem (is_root_truthy hroot) hd12
                            · exact root_no_desc hnodup (hrem' _ hmem) (is_root_truthy hr) hd21
                        refine List.nodup_cons.mpr ⟨?_, List.nodup_append.mpr
                          ⟨b1, c2, fun x hx hx2 => hdisj2 x hx hx2⟩⟩
                        intro hmem
                        rcases List.mem_append.mp hmem with h | h
                        · exact (b2 p.id h).2 (List.mem_cons_self _ _)
                        · exact hnot_tail p.id h rfl
                      · intro s hs x hx
                        rcases List.mem_cons.mp hs with rfl | hs'
                        · exact (b2 x hx).1
                        · exact c3 s hs' x hx

/-! ## Claim theorems: storm assembler -/

theorem is_root_iff {p : Post} (hne : p.in_reply_to_id ≠ some "") :
    is_root p = true ↔ (p.in_reply_to_id = none ∧ p.has_link = false) := by
  constructor
  · intro h
    exact ⟨not_truthy_none (is_root_truthy h) hne, is_root_link h⟩
  · rintro ⟨h1, h2⟩
    simp [is_root, truthy, h1, h2]

/-- C1: for the input post set A (no `in_reply_to_id`, `has_link` false),
B (reply to A, same author), C (reply to B, same author), D (reply to A,
different author), the storm assembler returns exactly one storm whose root
is A, whose branches are `[B]` with B's children `[C]`; D appears nowhere
in the output (the right-hand side is the complete output). -/
theorem c1_storm_assembly :
    get_storms
      [⟨"a", none, "u", 0, false⟩,
       ⟨"b", some ("a"), "u", 1, false⟩,
       ⟨"c", some ("b"), "u", 2, false⟩,
       ⟨"d", some ("a"), "v", 3, false⟩] =
    some [{ root := ⟨"a", none, "u", 0, false⟩,
            branches := [StormTree.node ⟨"b", some ("a"), "u", 1, false⟩
                          [StormTree.node ⟨"c", some ("b"), "u", 2, false⟩ []]] }] := rfl

/-- C2: every node of every storm tree returned by the assembler — every
branch post at every depth — has the same `author_id` as that storm's root,
and is moreover connected to the root by a reply chain consisting entirely
of posts with the root's author (`InStorm`): a child whose author differs is
excluded together with its whole subtree, and at every depth the
author test is against the root's author, not the immediate parent's. -/
theorem c2_storm_author_invariant (posts : List Post) (storms : List Storm)
    (h : get_storms posts = some storms) :
    ∀ s ∈ storms, ∀ q ∈ forest_posts s.branches,
      q.author_id = s.root.author_id ∧ InStorm posts s.root.author_id s.root.id q := by
  intro s hs q hq
  have hmem : ∀ p ∈ sort_desc posts, p ∈ posts :=
    fun p hp => (sort_desc_perm posts).mem_iff.mp hp
  obtain ⟨_, _, h3, _, _⟩ := storms_loop_in_storm posts (posts.length + 1)
    (sort_desc posts) [] storms hmem h s hs
  exact ⟨in_storm_author (h3 q hq), h3 q hq⟩

theorem c2_storm_author_invariant_witness :
    get_storms [⟨"r1", none, "alice", 0, false⟩, ⟨"r2", some ("r1"), "alice", 1, false⟩] =
      some [{ root := ⟨"r1", none, "alice", 0, false⟩,
              branches := [StormTree.node ⟨"r2", some ("r1"), "alice", 1, false⟩ []] }] ∧
    ∀ s ∈ ([{ root := ⟨"r1", none, "alice", 0, false⟩,
              branches := [StormTree.node ⟨"r2", some ("r1"), "alice", 1, false⟩ []] }] :
            List Storm),
      ∀ q ∈ forest_posts s.branches,
        q.author_id = s.root.author_id ∧
        InStorm [⟨"r1", none, "alice", 0, false⟩, ⟨"r2", some ("r1"), "alice", 1, false⟩]
          s.root.author_id s.root.id q :=
  ⟨rfl, c2_storm_author_invariant _ _ rfl⟩

/-- C3: on every input post set (posts have pairwise distinct ids, as the
primary-key `id` column guarantees) — including sets with a self-referential
`in_reply_to_id` or any cycle of reply links — the assembler terminates
(returns a value rather than recursing forever), and no post id appears
more than once across all returned storm trees, roots and branch posts at
every depth counted together. -/
theorem c3_termination_at_most_once (posts : List Post)
    (hnodup : (posts.map Post.id).Nodup) :
    ∃ storms, get_storms posts = some storms ∧
      ((storms_posts storms).map Post.id).Nodup := by
  have hmem : ∀ p ∈ sort_desc posts, p ∈ posts :=
    fun p hp => (sort_desc_perm posts).mem_iff.mp hp
  have hsome := storms_loop_some posts (posts.length + 1) hnodup (Nat.lt_succ_self _)
    (sort_desc posts) [] hmem
  rcases Option.isSome_iff_exists.mp hsome with ⟨storms, heq⟩
  refine ⟨storms, heq, ?_⟩
  have hremnd : ((sort_desc posts).map Post.id).Nodup :=
    ((sort_desc_perm posts).map Post.id).nodup_iff.mpr hnodup
  obtain ⟨_, cnd, _⟩ := storms_loop_main posts (posts.length + 1) hnodup (sort_desc posts) []
    storms hmem hremnd (by intro x hx; cases hx) heq
  exact cnd

theorem c3_termination_at_most_once_witness :
    (([⟨"x", some ("x"), "u", 0, false⟩] : List Post).map Post.id).Nodup ∧
    ∃ storms, get_storms [⟨"x", some ("x"), "u", 0, false⟩] = some storms ∧
      ((storms_posts storms).map Post.id).Nodup :=
  ⟨by simp, c3_termination_at_most_once _ (by simp)⟩

/-- C4: for every input post set (distinct ids; `in_reply_to_id` is never
the empty string, as the sync writer stores `str(x) if x else None`), the
roots of the returned storms are exactly the posts with no
`in_reply_to_id` and `has_link` false; the storms are ordered by their
root's `created_at` descending, and inside each storm every list of direct
children (the `branches` list and every node's children at every depth) is
ordered by `created_at` ascending. -/
theorem c4_roots_and_order (posts : List Post)
    (hnodup : (posts.map Post.id).Nodup)
    (hne : ∀ p ∈ posts, p.in_reply_to_id ≠ some "") :
    ∃ storms, get_storms posts = some storms ∧
      (∀ p, (∃ s ∈ storms, s.root = p) ↔
        (p ∈ posts ∧ p.in_reply_to_id = none ∧ p.has_link = false)) ∧
      storms.Pairwise (fun s t => t.root.created_at ≤ s.root.created_at) ∧
      (∀ s ∈ storms, heads_asc s.branches ∧ forest_sorted s.branches) := by
  have hmem : ∀ p ∈ sort_desc posts, p ∈ posts :=
    fun p hp => (sort_desc_perm posts).mem_iff.mp hp
  have hsome := storms_loop_some posts (posts.length + 1) hnodup (Nat.lt_succ_self _)
    (sort_desc posts) [] hmem
  rcases Option.isSome_iff_exists.mp hsome with ⟨storms, heq⟩
  have hremnd : ((sort_desc posts).map Post.id).Nodup :=
    ((sort_desc_perm posts).map Post.id).nodup_iff.mpr hnodup
  obtain ⟨croots, _, _⟩ := storms_loop_main posts (posts.length + 1) hnodup (sort_desc posts) []
    storms hmem hremnd (by intro x hx; cases hx) heq
  refine ⟨storms, heq, ?_, ?_, ?_⟩
  · intro p
    constructor
    · rintro ⟨s, hs, rfl⟩
      have hmm : s.root ∈ storms.map Storm.root := List.mem_map_of_mem Storm.root hs
      rw [croots] at hmm
      rcases List.mem_filter.mp hmm with ⟨hmemf, hr⟩
      have hpp : s.root ∈ posts := (sort_desc_perm posts).mem_iff.mp hmemf
      exact ⟨hpp, (is_root_iff (hne _ hpp)).mp hr⟩
    · rintro ⟨hpmem, h1, h2⟩
      have hr : is_root p = true := (is_root_iff (hne _ hpmem)).mpr ⟨h1, h2⟩
      have hpm' : p ∈ sort_desc posts := (sort_desc_perm posts).mem_iff.mpr hpmem
      have hmm : p ∈ storms.map Storm.root := by
        rw [croots]
        exact List.mem_filter.mpr ⟨hpm', hr⟩
      rcases List.mem_map.mp hmm with ⟨s, hs, hsr⟩
      exact ⟨s, hs, hsr⟩
  · have hp1 : (storms.map Storm.root).Pairwise (fun a b => b.created_at ≤ a.created_at) := by
      rw [croots]
      exact (sort_desc_pairwise posts).filter is_root
    exact @pairwise_unmap Storm Post Storm.root
      (fun a b => b.created_at ≤ a.created_at) storms hp1
  · intro s hs
    obtain ⟨_, _, _, h4, h5⟩ := storms_loop_in_storm posts (posts.length + 1)
      (sort_desc posts) [] storms hmem heq s hs
    exact ⟨h4, h5⟩

theorem c4_roots_and_order_witness :
    (([⟨"a", none, "u", 5, false⟩, ⟨"l", none, "u", 7, true⟩,
       ⟨"b", some ("a"), "u", 6, false⟩] : List Post).map Post.id).Nodup ∧
    (∀ p ∈ ([⟨"a", none, "u", 5, false⟩, ⟨"l", none, "u", 7, true⟩,
       ⟨"b", some ("a"), "u", 6, false⟩] : List Post), p.in_reply_to_id ≠ some "") ∧
    ∃ storms, get_storms [⟨"a", none, "u", 5, false⟩, ⟨"l", none, "u", 7, true⟩,
        ⟨"b", some ("a"), "u", 6, false⟩] = some storms ∧
      (∀ p, (∃ s ∈ storms, s.root = p) ↔
        (p ∈ ([⟨"a", none, "u", 5, false⟩, ⟨"l", none, "u", 7, true⟩,
          ⟨"b", some ("a"), "u", 6, false⟩] : List Post) ∧
          p.in_reply_to_id = none ∧ p.has_link = false)) ∧
      storms.Pairwise (fun s t => t.root.created_at ≤ s.root.created_at) ∧
      (∀ s ∈ storms, heads_asc s.branches ∧ forest_sorted s.branches) :=
  ⟨by simp, by simp, c4_roots_and_order _ (by simp) (by simp)⟩

/-! ## Lemmas about the classifier -/

theorem link_step_eval (cfg : DomainConfig) (link : Link) (f : ContentFlags)
    {netloc : List Char} (hnet : url_netloc link.href.data = Except.ok netloc) :
    link_step cfg link f = Except.ok
      ⟨f.has_media || domain_hit cfg.picture (clean_host netloc),
       f.has_video || domain_hit cfg.video (clean_host netloc),
       f.has_news || domain_hit cfg.news (clean_host netloc),
       f.has_tech || domain_hit cfg.tech (clean_host netloc),
       f.has_link || !(link.classes.contains ("mention") || link.classes.contains ("hashtag")),
       f.has_question⟩ := by
  unfold link_step
  rw [hnet]
  cases hm : (link.classes.contains ("mention") || link.classes.contains ("hashtag")) <;>
    cases h1 : domain_hit cfg.video (clean_host netloc) <;>
    cases h2 : domain_hit cfg.picture (clean_host netloc) <;>
    cases h3 : domain_hit cfg.tech (clean_host netloc) <;>
    cases h4 : domain_hit cfg.news (clean_host netloc) <;>
    simp [hm, h1, h2, h3, h4]

theorem link_step_ok (cfg : DomainConfig) (link : Link) (f g : ContentFlags)
    (h : link_step cfg link f = Except.ok g) :
    ∃ netloc, url_netloc link.href.data = Except.ok netloc ∧
      g = ⟨f.has_media || domain_hit cfg.picture (clean_host netloc),
           f.has_video || domain_hit cfg.video (clean_host netloc),
           f.has_news || domain_hit cfg.news (clean_host netloc),
           f.has_tech || domain_hit cfg.tech (clean_host netloc),
           f.has_link || !(link.classes.contains ("mention") || link.classes.contains ("hashtag")),
           f.has_question⟩ := by
  cases hnet : url_netloc link.href.data with
  | error e =>
      exfalso
      unfold link_step at h
      rw [hnet] at h
      cases h
  | ok netloc =>
      rw [link_step_eval cfg link f hnet] at h
      exact ⟨netloc, rfl, (Except.ok.inj h).symm⟩

theorem link_loop_question (cfg : DomainConfig) :
    ∀ (links : List Link) (f g : ContentFlags),
      link_loop cfg links f = Except.ok g → g.has_question = f.has_question := by
  intro links
  induction links with
  | nil =>
      intro f g h
      have hfg : f = g := Except.ok.inj h
      rw [hfg]
  | cons link rest ih =>
      intro f g h
      cases hstep : link_step cfg link f with
      | error e => simp [link_loop, hstep] at h
      | ok f1 =>
          have h' : link_loop cfg rest f1 = Except.ok g := by
            simpa [link_loop, hstep] using h
          rcases link_step_ok cfg link f f1 hstep with ⟨netloc, _, hf1⟩
          rw [ih f1 g h', hf1]

theorem link_loop_media (cfg : DomainConfig) :
    ∀ (links : List Link) (f g : ContentFlags),
      link_loop cfg links f = Except.ok g → f.has_media = true → g.has_media = true := by
  intro links
  induction links with
  | nil =>
      intro f g h hm
      have hfg : f = g := Except.ok.inj h
      rw [← hfg]
      exact hm
  | cons link rest ih =>
      intro f g h hm
      cases hstep : link_step cfg link f with
      | error e => simp [link_loop, hstep] at h
      | ok f1 =>
          have h' : link_loop cfg rest f1 = Except.ok g := by
            simpa [link_loop, hstep] using h
          rcases link_step_ok cfg link f f1 hstep with ⟨netloc, _, hf1⟩
          refine ih f1 g h' ?_
          rw [hf1]
          simp [hm]

theorem attachment_flags_question : ∀ (l : List Attachment) (f : ContentFlags),
    (attachment_flags l f).has_question = f.has_question := by
  intro l
  induction l with
  | nil => intro f; rfl
  | cons m rest ih =>
      intro f
      simp only [attachment_flags]
      rw [ih]
      cases h1 : (m.type == "video" || m.type == "gifv" || m.type == "audio") <;>
        cases h2 : (m.type == "image") <;> simp [h1, h2]

theorem attachment_flags_media_mono : ∀ (l : List Attachment) (f : ContentFlags),
    f.has_media = true → (attachment_flags l f).has_media = true := by
  intro l
  induction l with
  | nil => intro f hm; exact hm
  | cons m rest ih =>
      intro f hm
      simp only [attachment_flags]
      apply ih
      cases h1 : (m.type == "video" || m.type == "gifv" || m.type == "audio") <;>
        cases h2 : (m.type == "image") <;> simp [h1, h2, hm]

theorem attachment_flags_image : ∀ (l : List Attachment) (f : ContentFlags),
    (l.any fun m => m.type == "image") = true → (attachment_flags l f).has_media = true := by
  intro l
  induction l with
  | nil =>
      intro f h
      simp at h
  | cons m rest ih =>
      intro f h
      have h' : (m.type == "image") = true ∨ (rest.any fun m => m.type == "image") = true := by
        have h2 := h
        simp only [List.any_cons, Bool.or_eq_true] at h2
        exact h2
      rcases h' with h1 | h2
      · simp only [attachment_flags, h1]
        apply attachment_flags_media_mono
        cases hv : (m.type == "video" || m.type == "gifv" || m.type == "audio") <;> simp [hv]
      · simp only [attachment_flags]
        exact ih _ h2

theorem analyze_unfold (cfg : DomainConfig) (soup : Soup) (att : List Attachment)
    (reply : Bool) :
    analyze_content_domains cfg soup att reply =
      match link_loop cfg soup.links (pre_link_flags soup att) with
      | Except.error e => Except.error e
      | Except.ok flags3 =>
          Except.ok (if (!reply && gate_scan soup.text.data) = true then
            { flags3 with has_question := has_human_question soup.text } else flags3) := rfl

theorem analyze_cases (cfg : DomainConfig) (soup : Soup) (att : List Attachment)
    (reply : Bool) :
    (∃ e, analyze_content_domains cfg soup att reply = Except.error e ∧
       link_loop cfg soup.links (pre_link_flags soup att) = Except.error e) ∨
    (∃ flags3, link_loop cfg soup.links (pre_link_flags soup att) = Except.ok flags3 ∧
       analyze_content_domains cfg soup att reply =
         Except.ok (if (!reply && gate_scan soup.text.data) = true then
            { flags3 with has_question := has_human_question soup.text } else flags3)) := by
  cases hE : link_loop cfg soup.links (pre_link_flags soup att) with
  | error e =>
      refine Or.inl ⟨e, ?_, rfl⟩
      rw [analyze_unfold, hE]
  | ok flags3 =>
      refine Or.inr ⟨flags3, rfl, ?_⟩
      rw [analyze_unfold, hE]

theorem pre_link_flags_question (soup : Soup) (att : List Attachment) :
    (pre_link_flags soup att).has_question = false := by
  unfold pre_link_flags
  cases hif : soup.has_iframe <;> simp [hif, attachment_flags_question]

theorem pre_link_flags_image (soup : Soup) (att : List Attachment)
    (him : (att.any fun m => m.type == "image") = true) :
    (pre_link_flags soup att).has_media = true := by
  unfold pre_link_flags
  cases hif : soup.has_iframe <;> simp [hif, attachment_flags_image _ _ him]

theorem analyze_ok_question (cfg : DomainConfig) (soup : Soup) (att : List Attachment)
    (reply : Bool) (flags : ContentFlags)
    (h : analyze_content_domains cfg soup att reply = Except.ok flags) :
    flags.has_question =
      (!reply && gate_scan soup.text.data && has_human_question soup.text) := by
  rcases analyze_cases cfg soup att reply with ⟨e, herr, _⟩ | ⟨flags3, heq, hout⟩
  · rw [herr] at h
    cases h
  · have hfl : flags = (if (!reply && gate_scan soup.text.data) = true then
        { flags3 with has_question := has_human_question soup.text } else flags3) :=
      Except.ok.inj (h.symm.trans hout)
    have hq3 : flags3.has_question = false := by
      rw [link_loop_question cfg soup.links _ flags3 heq]
      exact pre_link_flags_question soup att
    rw [hfl]
    cases hc : (!reply && gate_scan soup.text.data) <;> simp [hc, hq3]

theorem analyze_ok_media (cfg : DomainConfig) (soup : Soup) (att : List Attachment)
    (reply : Bool) (flags : ContentFlags)
    (h : analyze_content_domains cfg soup att reply = Except.ok flags)
    (him : (att.any fun m => m.type == "image") = true) :
    flags.has_media = true := by
  rcases analyze_cases cfg soup att reply with ⟨e, herr, _⟩ | ⟨flags3, heq, hout⟩
  · rw [herr] at h
    cases h
  · have hfl : flags = (if (!reply && gate_scan soup.text.data) = true then
        { flags3 with has_question := has_human_question soup.text } else flags3) :=
      Except.ok.inj (h.symm.trans hout)
    have hm3 : flags3.has_media = true :=
      link_loop_media cfg soup.links _ flags3 heq (pre_link_flags_image soup att him)
    rw [hfl]
    cases hc : (!reply && gate_scan soup.text.data) <;> simp [hc, hm3]

/-! ## Claim theorems: content classifier -/

/-- C5 (code bug): on a post whose single link has the malformed URL
`http://[`, `urlparse` raises `ValueError`; the `except Exception:` handler
(inspect_post.py line 87) evaluates `logger.error(e)`, but neither `logger`
nor `e` is defined in the module, so the classifier raises `NameError`
instead of skipping the link silently — classification of the remaining
signals is aborted, contradicting the claim that malformed URLs are skipped
and that classification never raises. -/
theorem c5_classifier_raises :
    analyze_content_domains ⟨[], [], [], []⟩ ⟨[⟨"http://[", []⟩], false, "x"⟩ [] false =
      Except.error ("NameError: logger is not defined") := rfl

/-- C7 (code bug): the code's own comment says it removes the `www.`
*prefix*, and the claim says the host used for matching is the netloc
lowercased with a leading `www.` stripped and nothing else removed; but
`domain.replace("www.", "")` removes every occurrence.  For the link
`http://a.www.b/x` with news set `{"a.www.b"}`, the spec-side host is
`a.www.b` (which the configured domain matches by substring), yet the code
matches against `a.b` and returns `has_news = false` (the full output
record is shown; `has_link = true` since the link has no mention/hashtag
class). -/
theorem c7_www_replace_bug :
    analyze_content_domains ⟨[], [], [], ["a.www.b"]⟩
        ⟨[⟨"http://a.www.b/x", []⟩], false, ""⟩ [] false =
      Except.ok ⟨false, false, false, false, true, false⟩ ∧
    clean_host (("a.www.b" : String).data) = (("a.b" : String)).data ∧
    domain_hit ["a.www.b"] (spec_clean_host (("a.www.b" : String)).data) = true :=
  ⟨rfl, rfl, by decide⟩

/-- C10: the five flags `has_media`, `has_video`, `has_news`, `has_tech`,
`has_link` (and the error outcome) of the classifier are identical for
`is_reply_to_other = true` and `false`: that input can influence only
`has_question`. -/
theorem c10_reply_noninterference (cfg : DomainConfig) (soup : Soup)
    (att : List Attachment) :
    (analyze_content_domains cfg soup att true).map visible_flags =
    (analyze_content_domains cfg soup att false).map visible_flags := by
  rcases analyze_cases cfg soup att true with ⟨e, herr, hE⟩ | ⟨f3, hE, hout⟩
  · rcases analyze_cases cfg soup att false with ⟨e2, herr2, hE2⟩ | ⟨f32, hE2, _⟩
    · rw [herr, herr2]
      rw [hE] at hE2
      rw [Except.error.inj hE2]
    · rw [hE] at hE2
      cases hE2
  · rcases analyze_cases cfg soup att false with ⟨e2, herr2, hE2⟩ | ⟨f32, hE2, hout2⟩
    · rw [hE] at hE2
      cases hE2
    · have hff : f3 = f32 := Except.ok.inj (hE.symm.trans hE2)
      rw [hout, hout2, ← hff]
      cases hc : gate_scan soup.text.data <;> simp [hc, visible_flags, Except.map]

/-- C9: (i) whenever the attachment list contains an attachment of type
`image`, any flags the classifier returns have `has_media = true`,
regardless of the HTML and of `is_reply_to_other`; (ii) with empty
attachments and tag-free HTML (no links, no iframe), the classifier
returns flags with `has_media`, `has_video` and `has_link` all false. -/
theorem c9_media_flags (cfg : DomainConfig) (soup : Soup) (att : List Attachment)
    (reply : Bool) :
    ((att.any fun m => m.type == "image") = true →
      ∀ flags, analyze_content_domains cfg soup att reply = Except.ok flags →
        flags.has_media = true) ∧
    (att = [] → soup.links = [] → soup.has_iframe = false →
      ∃ flags, analyze_content_domains cfg soup att reply = Except.ok flags ∧
        flags.has_media = false ∧ flags.has_video = false ∧ flags.has_link = false) := by
  constructor
  · intro him flags h
    exact analyze_ok_media cfg soup att reply flags h him
  · intro ha hl hi
    obtain ⟨links, hif, text⟩ := soup
    have hl' : links = [] := hl
    have hi' : hif = false := hi
    subst ha
    subst hl'
    subst hi'
    have heval : analyze_content_domains cfg ⟨[], false, text⟩ [] reply =
        Except.ok (if (!reply && gate_scan text.data) = true then
          { (⟨false, false, false, false, false, false⟩ : ContentFlags) with
            has_question := has_human_question text }
          else ⟨false, false, false, false, false, false⟩) := rfl
    refine ⟨_, heval, ?_, ?_, ?_⟩ <;>
      cases hc : (!reply && gate_scan text.data) <;> simp [hc]

theorem c9_media_flags_witness :
    (([⟨"image"⟩] : List Attachment).any fun m => m.type == "image") = true ∧
    (⟨true, false, false, false, false, false⟩ : ContentFlags).has_media = true ∧
    (∃ flags, analyze_content_domains ⟨[], [], [], []⟩ ⟨[], false, "t"⟩ [] false =
        Except.ok flags ∧
      flags.has_media = false ∧ flags.has_video = false ∧ flags.has_link = false) := by
  refine ⟨rfl, ?_, ?_⟩
  · exact (c9_media_flags ⟨[], [], [], []⟩ ⟨[], false, "t"⟩ [⟨"image"⟩] false).1 rfl
      ⟨true, false, false, false, false, false⟩ rfl
  · exact (c9_media_flags ⟨[], [], [], []⟩ ⟨[], false, "t"⟩ [] false).2 rfl rfl rfl

/-- C8: for the HTML consisting of one anchor with class `hashtag` pointing
at `https://youtube.com/x`, empty attachments, and any configuration whose
video set contains `youtube.com`, the classifier returns
`has_link = false` (the mention/hashtag class excludes the link from
`has_link`) but `has_video = true` (the link is still evaluated against the
domain sets). -/
theorem c8_hashtag_domain (cfg : DomainConfig) (hv : "youtube.com" ∈ cfg.video)
    (reply : Bool) :
    ∃ flags, analyze_content_domains cfg
        ⟨[⟨"https://youtube.com/x", ["hashtag"]⟩], false, "#vid"⟩ [] reply =
        Except.ok flags ∧
      flags.has_link = false ∧ flags.has_video = true := by
  have hvid : domain_hit cfg.video (clean_host (("youtube.com" : String)).data) = true :=
    List.any_eq_true.mpr ⟨"youtube.com", hv, by decide⟩
  have hnet : url_netloc (("https://youtube.com/x" : String)).data =
      Except.ok (("youtube.com" : String)).data := rfl
  have hstep := link_step_eval cfg ⟨"https://youtube.com/x", ["hashtag"]⟩
    ⟨false, false, false, false, false, false⟩ hnet
  have hcl : (((["hashtag"] : List String)).contains ("mention") ||
      ((["hashtag"] : List String)).contains ("hashtag")) = true := rfl
  have hll : link_loop cfg [⟨"https://youtube.com/x", ["hashtag"]⟩]
      ⟨false, false, false, false, false, false⟩ =
      Except.ok ⟨domain_hit cfg.picture (clean_host (("youtube.com" : String)).data),
        true,
        domain_hit cfg.news (clean_host (("youtube.com" : String)).data),
        domain_hit cfg.tech (clean_host (("youtube.com" : String)).data),
        false, false⟩ := by
    simp [link_loop, hstep, hcl, hvid]
  have hpre : pre_link_flags ⟨[⟨"https://youtube.com/x", ["hashtag"]⟩], false, "#vid"⟩ [] =
      ⟨false, false, false, false, false, false⟩ := rfl
  have hg : gate_scan (("#vid" : String)).data = false := rfl
  have han : analyze_content_domains cfg
      ⟨[⟨"https://youtube.com/x", ["hashtag"]⟩], false, "#vid"⟩ [] reply =
      Except.ok ⟨domain_hit cfg.picture (clean_host (("youtube.com" : String)).data),
        true,
        domain_hit cfg.news (clean_host (("youtube.com" : String)).data),
        domain_hit cfg.tech (clean_host (("youtube.com" : String)).data),
        false, false⟩ := by
    simp [analyze_unfold, hpre, hll, hg]
  exact ⟨_, han, rfl, rfl⟩

theorem c8_hashtag_domain_witness :
    "youtube.com" ∈ (⟨["youtube.com"], [], [], []⟩ : DomainConfig).video ∧
    (∃ flags, analyze_content_domains ⟨["youtube.com"], [], [], []⟩
        ⟨[⟨"https://youtube.com/x", ["hashtag"]⟩], false, "#vid"⟩ [] false =
        Except.ok flags ∧ flags.has_link = false ∧ flags.has_video = true) :=
  ⟨List.mem_cons_self _ _, c8_hashtag_domain _ (List.mem_cons_self _ _) false⟩

/-! ## The question regexes, declaratively -/

theorem gate_scan_iff : ∀ (t : List Char), gate_scan t = true ↔ raw_gate t := by
  intro t
  induction t with
  | nil =>
      constructor
      · intro h
        simp [gate_scan] at h
      · rintro ⟨pre, c, post, heq, -⟩
        have hlen := congrArg List.length heq
        simp [List.length_append] at hlen
        omega
  | cons c1 t ih =>
      cases t with
      | nil =>
          constructor
          · intro h
            simp [gate_scan] at h
          · rintro ⟨pre, c, post, heq, -⟩
            have hlen := congrArg List.length heq
            simp [List.length_append] at hlen
            omega
      | cons c2 rest =>
          constructor
          · intro h
            have h' : (is_word_char c1 && (c2 == '?')) = true ∨
                gate_scan (c2 :: rest) = true := by
              simpa [gate_scan, Bool.or_eq_true] using h
            rcases h' with h1 | h2
            · have h1' : is_word_char c1 = true ∧ (c2 == '?') = true := by
                simpa [Bool.and_eq_true] using h1
              refine ⟨[], c1, rest, ?_, h1'.1⟩
              rw [eq_of_beq h1'.2]
              rfl
            · rcases ih.mp h2 with ⟨pre, c, post, heq, hw⟩
              refine ⟨c1 :: pre, c, post, ?_, hw⟩
              rw [List.cons_append, ← heq]
          · rintro ⟨pre, c, post, heq, hw⟩
            cases pre with
            | nil =>
                have h1 : c1 = c ∧ c2 = '?' ∧ rest = post := by
                  simpa using heq
                rcases h1 with ⟨rfl, h2, rfl⟩
                show (is_word_char c1 && (c2 == '?') || gate_scan (c2 :: rest)) = true
                rw [h2]
                simp [hw]
            | cons p pre' =>
                have h1 : c1 = p ∧ c2 :: rest = pre' ++ c :: '?' :: post := by
                  simpa using heq
                rcases h1 with ⟨rfl, heq'⟩
                have hg : gate_scan (c2 :: rest) = true := ih.mpr ⟨pre', c, post, heq', hw⟩
                show (is_word_char c1 && (c2 == '?') || gate_scan (c2 :: rest)) = true
                simp [hg]

theorem hhq_accept_iff (w : Bool) (t : List Char) :
    hhq_accept w t = true ↔ (w = true ∧ ∃ post, t = '?' :: post ∧ ws_ok post) := by
  cases t with
  | nil => simp [hhq_accept]
  | cons q rest =>
      by_cases hq : q = '?'
      · subst hq
        cases rest with
        | nil =>
            constructor
            · intro hw
              have hw' : w = true := by simpa [hhq_accept] using hw
              exact ⟨hw', [], rfl, trivial⟩
            · rintro ⟨hw, post, heq, -⟩
              simpa [hhq_accept] using hw
        | cons d rest2 =>
            constructor
            · intro hw
              have hw' : w = true ∧ is_space d = true := by
                simpa [hhq_accept, Bool.and_eq_true] using hw
              exact ⟨hw'.1, d :: rest2, rfl, hw'.2⟩
            · rintro ⟨hw, post, heq, hws⟩
              have hpost : post = d :: rest2 := by simpa using heq.symm
              subst hpost
              have hd : is_space d = true := hws
              simp [hhq_accept, hw, hd]
      · constructor
        · intro hw
          exfalso
          simp [hhq_accept, hq] at hw
        · rintro ⟨-, post, heq, -⟩
          have h1 : q = '?' ∧ rest = post := by simpa using heq
          exact absurd h1.1 hq

theorem hhq_scan_iff : ∀ (t : List Char) (hasW : Bool),
    hhq_scan hasW t = true ↔
    ∃ pre run post, t = pre ++ run ++ '?' :: post ∧ run ≠ [] ∧
      (∀ c ∈ run, is_word_ex c = true) ∧
      ((∃ c ∈ run, is_word_char c = true) ∨ (hasW = true ∧ pre = [])) ∧ ws_ok post := by
  intro t
  induction t with
  | nil =>
      intro hasW
      constructor
      · intro h
        simp [hhq_scan] at h
      · rintro ⟨pre, run, post, heq, hne, -, -, -⟩
        have hlen := congrArg List.length heq
        simp [List.length_append] at hlen
        omega
  | cons c t ih =>
      intro hasW
      by_cases hcw : is_word_ex c = true
      · have hunf : hhq_scan hasW (c :: t) =
            (hhq_accept (hasW || is_word_char c) t ||
             hhq_scan (hasW || is_word_char c) t) := by
          simp [hhq_scan, hcw]
        rw [hunf]
        constructor
        · intro h
          have h' : hhq_accept (hasW || is_word_char c) t = true ∨
              hhq_scan (hasW || is_word_char c) t = true := by
            simpa [Bool.or_eq_true] using h
          rcases h' with hA | hB
          · rcases (hhq_accept_iff _ t).mp hA with ⟨hW2, post, heqt, hws⟩
            have hOr : hasW = true ∨ is_word_char c = true := by
              simpa [Bool.or_eq_true] using hW2
            refine ⟨[], [c], post, by rw [heqt]; rfl, by simp, ?_, ?_, hws⟩
            · intro x hx
              rw [List.mem_singleton.mp hx]
              exact hcw
            · rcases hOr with hW | hwc
              · exact Or.inr ⟨hW, rfl⟩
              · exact Or.inl ⟨c, List.mem_singleton.mpr rfl, hwc⟩
          · rcases (ih (hasW || is_word_char c)).mp hB with
              ⟨pre, run, post, heq, hne, hall, hcond, hws⟩
            rcases hcond with hex | ⟨hOr, hpre⟩
            · refine ⟨c :: pre, run, post, ?_, hne, hall, Or.inl hex, hws⟩
              rw [heq]
              rfl
            · subst hpre
              have hOr' : hasW = true ∨ is_word_char c = true := by
                simpa [Bool.or_eq_true] using hOr
              refine ⟨[], c :: run, post, ?_, by simp, ?_, ?_, hws⟩
              · rw [heq]
                simp
              · intro x hx
                rcases List.mem_cons.mp hx with rfl | hx'
                · exact hcw
                · exact hall x hx'
              · rcases hOr' with hW | hwc
                · exact Or.inr ⟨hW, rfl⟩
                · exact Or.inl ⟨c, List.mem_cons_self c run, hwc⟩
        · rintro ⟨pre, run, post, heq, hne, hall, hcond, hws⟩
          cases pre with
          | cons p pre' =>
              have h1 : c = p ∧ t = pre' ++ run ++ '?' :: post := by
                simpa using heq
              rcases h1 with ⟨rfl, heq'⟩
              have hex : ∃ x ∈ run, is_word_char x = true := by
                rcases hcond with hex | ⟨-, hpre⟩
                · exact hex
                · cases hpre
              have hB : hhq_scan (hasW || is_word_char c) t = true :=
                (ih _).mpr ⟨pre', run, post, heq', hne, hall, Or.inl hex, hws⟩
              simp [hB]
          | nil =>
              cases run with
              | nil => exact absurd rfl hne
              | cons r run2 =>
                  have h1 : c = r ∧ t = run2 ++ '?' :: post := by
                    simpa using heq
                  rcases h1 with ⟨rfl, heq'⟩
                  cases run2 with
                  | nil =>
                      have heqt : t = '?' :: post := by simpa using heq'
                      have hWor : (hasW || is_word_char c) = true := by
                        rcases hcond with ⟨x, hx, hwcx⟩ | ⟨hW, -⟩
                        · rw [List.mem_singleton.mp hx] at hwcx
                          simp [hwcx]
                        · simp [hW]
                      have hA : hhq_accept (hasW || is_word_char c) t = true :=
                        (hhq_accept_iff _ t).mpr ⟨hWor, post, heqt, hws⟩
                      simp [hA]
                  | cons r2 run3 =>
                      have hB : hhq_scan (hasW || is_word_char c) t = true := by
                        refine (ih _).mpr ⟨[], r2 :: run3, post, by simpa using heq',
                          by simp, ?_, ?_, hws⟩
                        · intro x hx
                          exact hall x (List.mem_cons_of_mem _ hx)
                        · rcases hcond with ⟨x, hx, hwcx⟩ | ⟨hW, -⟩
                          · rcases List.mem_cons.mp hx with rfl | hx'
                            · exact Or.inr ⟨by simp [hwcx], rfl⟩
                            · exact Or.inl ⟨x, hx', hwcx⟩
                          · exact Or.inr ⟨by simp [hW], rfl⟩
                      simp [hB]
      · have hcw' : is_word_ex c = false := by
          cases hcwb : is_word_ex c
          · rfl
          · exact absurd hcwb hcw
        have hunf : hhq_scan hasW (c :: t) = hhq_scan false t := by
          simp [hhq_scan, hcw']
        rw [hunf, ih false]
        constructor
        · rintro ⟨pre, run, post, heq, hne, hall, hcond, hws⟩
          have hex : ∃ x ∈ run, is_word_char x = true := by
            rcases hcond with hex | ⟨hfalse, -⟩
            · exact hex
            · simp at hfalse
          refine ⟨c :: pre, run, post, ?_, hne, hall, Or.inl hex, hws⟩
          rw [heq]
          rfl
        · rintro ⟨pre, run, post, heq, hne, hall, hcond, hws⟩
          cases pre with
          | nil =>
              cases run with
              | nil => exact absurd rfl hne
              | cons r run2 =>
                  have h1 : c = r ∧ t = run2 ++ '?' :: post := by
                    simpa using heq
                  rcases h1 with ⟨rfl, -⟩
                  exact absurd (hall c (List.mem_cons_self c run2)) (by simp [hcw'])
          | cons p pre' =>
              have h1 : c = p ∧ t = pre' ++ run ++ '?' :: post := by
                simpa using heq
              rcases h1 with ⟨rfl, heq'⟩
              have hex : ∃ x ∈ run, is_word_char x = true := by
                rcases hcond with hex | ⟨-, hpre⟩
                · exact hex
                · cases hpre
              exact ⟨pre', run, post, heq', hne, hall, Or.inl hex, hws⟩

theorem hhq_scan_false_iff (t : List Char) :
    hhq_scan false t = true ↔ word_run_question t := by
  rw [hhq_scan_iff t false]
  unfold word_run_question
  constructor
  · rintro ⟨pre, run, post, heq, hne, hall, hcond, hws⟩
    have hex : ∃ x ∈ run, is_word_char x = true := by
      rcases hcond with hex | ⟨hfalse, -⟩
      · exact hex
      · simp at hfalse
    exact ⟨pre, run, post, heq, hne, hall, hex, hws⟩
  · rintro ⟨pre, run, post, heq, hne, hall, hex, hws⟩
    exact ⟨pre, run, post, heq, hne, hall, Or.inl hex, hws⟩

/-- C6 (amended): when `is_reply_to_other` is true, `has_question` is false.
When it is false, `has_question` is true iff BOTH (i) the raw extracted
text contains a `\w` word character (letter, digit or underscore — the
apostrophe variants do not count here) immediately followed by `?`
(the `re.search(r"\w+\?", text)` pre-check), and (ii) after stripping tags,
unescaping entities and stripping URLs, the text contains a non-empty run
of word/apostrophe characters containing at least one `\w` character,
immediately followed by a `?` that ends the text or precedes whitespace
(the `\b`-anchored regex of `has_human_question`). -/
theorem c6_question_amended (cfg : DomainConfig) (soup : Soup) (att : List Attachment) :
    (∀ flags, analyze_content_domains cfg soup att true = Except.ok flags →
      flags.has_question = false) ∧
    (∀ flags, analyze_content_domains cfg soup att false = Except.ok flags →
      (flags.has_question = true ↔
        (raw_gate soup.text.data ∧ word_run_question (clean_text soup.text.data)))) := by
  constructor
  · intro flags h
    have hq := analyze_ok_question cfg soup att true flags h
    simpa using hq
  · intro flags h
    have hq := analyze_ok_question cfg soup att false flags h
    rw [hq]
    rw [show has_human_question soup.text = hhq_scan false (clean_text soup.text.data)
      from rfl]
    simp only [Bool.not_false, Bool.true_and, Bool.and_eq_true]
    rw [gate_scan_iff, hhq_scan_false_iff]

theorem c6_question_amended_witness :
    analyze_content_domains ⟨[], [], [], []⟩ ⟨[], false, "Why is the sky blue?"⟩ [] false =
      Except.ok ⟨false, false, false, false, false, true⟩ ∧
    ((⟨false, false, false, false, false, true⟩ : ContentFlags).has_question = true ↔
      (raw_gate (("Why is the sky blue?" : String)).data ∧
        word_run_question (clean_text (("Why is the sky blue?" : String)).data))) :=
  ⟨rfl, (c6_question_amended ⟨[], [], [], []⟩ ⟨[], false, "Why is the sky blue?"⟩ []).2
    ⟨false, false, false, false, false, true⟩ rfl⟩

/-- C6 counterexample: for the post text `huh’?` (tag-free HTML, no links,
empty attachments, `is_reply_to_other = false`), the condition the claim
states holds — after cleaning, the apostrophe variant `’` (a word character
in the claim's class) is immediately followed by a text-final `?` — yet the
classifier returns `has_question = false`, because the raw-text pre-check
`re.search(r"\w+\?", text)` fails (`’` is not `\w`). -/
theorem c6_question_counterexample :
    analyze_content_domains ⟨[], [], [], []⟩ ⟨[], false, "huh’?"⟩ [] false =
      Except.ok ⟨false, false, false, false, false, false⟩ ∧
    spec_question (("huh’?" : String)).data :=
  ⟨rfl, ⟨['h', 'u', 'h'], '’', [], by decide, by decide, trivial⟩⟩

end MB
